import Mathlib

/-!
Verification of the parallel recursive file/folder search engine of the
file-search TUI tool (src/cmd/file_search.go).

The Go code is shallowly embedded as follows.

A filesystem snapshot is a finite tree of entries (FSEntry below).  A
directory carries a readability flag: os.ReadDir on it succeeds exactly
when the flag is true.  The list of children of a directory stands for
the output of os.ReadDir, which returns the entries sorted by filename;
concrete example trees below are therefore written in sorted order.

String operations from the Go standard library are modelled over the
character data of Lean strings: strings.Contains is substring search,
strings.ToLower is character-wise lowercasing (the names involved are
ASCII, where Go's Unicode lowering and character-wise lowering agree),
and filepath.Join dir name is dir ++ "/" ++ name (the inputs produced
by the traversal are clean paths and separator-free names, on which
filepath.Join reduces to exactly this concatenation).  sort.Strings
sorts byte-wise; on ASCII data this is the character-code lexicographic
order used here.

The concurrency of parallelWalk is embedded as a small-step scheduled
system: the buffered channel dirQueue becomes a list of pending
directory items, and one step removes one item — chosen by an arbitrary
schedule, which models both the nondeterministic relative progress of
the 16 workers and the order the channel hands items out — and runs the
body of the worker loop on it.  The shared matched slice, the scanned
and found atomic counters, and the queue are threaded through the steps
as explicit state.  Matches are accumulated in an arbitrary
(schedule-dependent) order, exactly as the mutex-guarded appends of
concurrent workers interleave arbitrarily; the final result is sorted,
which is what makes the output order well defined.  The wait-group
protocol of parallelWalk (pending counter and channel closure) is
embedded separately as an explicit transition relation at the end of
this file.
-/

/-! ## Strings: the pieces of the Go standard library the code uses -/

/-- Character-code comparison of character lists; on ASCII data this is
the byte-wise lexicographic order that Go's sort.Strings uses. -/
def charListLe : List Char → List Char → Bool
  | [], _ => true
  | _ :: _, [] => false
  | a :: as, b :: bs =>
    if a.toNat < b.toNat then true
    else if b.toNat < a.toNat then false
    else charListLe as bs

/-- Byte-order comparison of strings, as used by sort.Strings. -/
def strLe (a b : String) : Bool := charListLe a.data b.data

/-- Models strings.ToLower (character-wise; the traversal only compares
ASCII data, where this agrees with Go's Unicode lowering). -/
def lowerS (s : String) : String := ⟨s.data.map Char.toLower⟩

/-- Is the first list a leading segment of the second? -/
def leadsList : List Char → List Char → Bool
  | [], _ => true
  | _ :: _, [] => false
  | a :: as, b :: bs => a == b && leadsList as bs

/-- Substring search on character lists: needle occurs contiguously in hay. -/
def containsList (hay needle : List Char) : Bool :=
  leadsList needle hay ||
    match hay with
    | [] => false
    | _ :: t => containsList t needle

/-- Models strings.Contains s sub. -/
def goContains (s sub : String) : Bool := containsList s.data sub.data

/-- Models filepath.Join dir name for a clean dir path and a
separator-free name, where it is plain concatenation with "/". -/
def joinPath (dir name : String) : String := dir ++ "/" ++ name

/-! ## The fixed data of file_search.go -/

/-- The skipDirs table of file_search.go: lowercased directory names
pruned from traversal when system-dir skipping is on. -/
def skipDirs (s : String) : Bool :=
  s == "$recycle.bin" || s == "system volume information" || s == "windows" ||
  s == "program files" || s == "program files (x86)" || s == "programdata" ||
  s == ".git" || s == "node_modules" || s == ".cache" || s == ".tmp" ||
  s == "__pycache__" || s == ".vs" || s == ".idea" || s == ".gradle" ||
  s == "vendor" || s == "dist" || s == "obj" || s == "bin"

/-- const maxResults = 10000 -/
def maxResults : Nat := 10000

/-- The dirQueue channel buffer capacity (make(chan string, 4096)). -/
def queueCap : Nat := 4096

/-- type SearchMode: Both | Files | Folders. -/
inductive SearchMode where
  | ModeBoth : SearchMode
  | ModeFiles : SearchMode
  | ModeFolders : SearchMode
deriving DecidableEq

/-! ## Filesystem snapshots -/

/-- A filesystem entry: a file, or a directory with its os.ReadDir
readability and its children (the sorted os.ReadDir listing). -/
inductive FSEntry where
  | file : String → FSEntry
  | dir : String → Bool → List FSEntry → FSEntry

/-- entry.Name() -/
def FSEntry.name : FSEntry → String
  | .file n => n
  | .dir n _ _ => n

/-- entry.IsDir() -/
def FSEntry.isDir : FSEntry → Bool
  | .file _ => false
  | .dir _ _ _ => true

/-- Does the lowercased name start with a dot?  Models
len(nameLower) > 0 && nameLower[0] == '.' . -/
def startsDot (s : String) : Bool :=
  match s.data with
  | [] => false
  | c :: _ => c == '.'

/-- The prune test of the worker loop and walkInline: a directory is
skipped when skipSystemDirs is on and its lowercased name is in the
skip table or starts with a dot.  (Applied only to directories.) -/
def pruned (skip : Bool) (e : FSEntry) (nameLower : String) : Bool :=
  e.isDir && skip && (skipDirs nameLower || startsDot nameLower)

/-- The match test: strings.Contains(nameLower, query) ||
strings.Contains(strings.ToLower(fullPath), query). -/
def rawMatch (query nameLower fullPath : String) : Bool :=
  goContains nameLower query || goContains (lowerS fullPath) query

/-- The mode switch deciding isMatch from the entry kind. -/
def modeOK (mode : SearchMode) (e : FSEntry) : Bool :=
  match mode with
  | .ModeBoth => true
  | .ModeFiles => !e.isDir
  | .ModeFolders => e.isDir

mutual

/-- Weight of an entry, used to bound the traversal. -/
def entrySize : FSEntry → Nat
  | .file _ => 1
  | .dir _ _ c => 2 + entriesSize c

/-- Total weight of a list of entries. -/
def entriesSize : List FSEntry → Nat
  | [] => 0
  | e :: t => entrySize e + entriesSize t

end

/-! ## The shared search state and the elementary actions on it

The bodies of the worker loop (lines 198-247 of file_search.go) and of
walkInline (lines 287-324) perform the same per-entry actions on the
shared state; they are named here so that both loops are literally
built from them. -/

/-- The shared mutable state of one search run: the mutex-guarded
matched slice and the scanned and found atomic counters.  New matches
are accumulated by consing; the accumulation order across workers is
arbitrary in the Go code (it depends on mutex acquisition order) and
the final result is sorted, so only the multiset of matches is
meaningful. -/
structure SearchState where
  matched : List String
  scanned : Nat
  found : Nat
deriving DecidableEq

/-- atomic.AddInt64(&scanned, 1) -/
def bumpScan (st : SearchState) : SearchState :=
  { st with scanned := st.scanned + 1 }

/-- The match block (lines 229-246 and 307-323): if the name or full
path contains the query and the entry kind fits the mode, append
fullPath to matched and bump found. -/
def addMatch (query : String) (mode : SearchMode) (nameLower fullPath : String)
    (e : FSEntry) (st : SearchState) : SearchState :=
  if rawMatch query nameLower fullPath && modeOK mode e then
    { st with matched := fullPath :: st.matched, found := st.found + 1 }
  else st

/-! ## walkInline

walkInline recurses into subdirectories, which is not structural
recursion over the entry list; it is defined over a fuel argument that
the wrapper walkInline instantiates with enough fuel (so that the
definition evaluates by kernel reduction), and the recursive equations
of the Go function are recovered as theorems below. -/

/-- Fuelled body of walkInline.  With fuel exceeding the total weight
of the entry list (as the wrapper provides) the fuel never runs out. -/
def walkInlineF (query : String) (mode : SearchMode) (skip : Bool) :
    Nat → String → List FSEntry → SearchState → SearchState
  | 0, _, _, st => st
  | _ + 1, _, [], st => st
  | fuel + 1, dirPath, e :: rest, st =>
    if maxResults ≤ st.found then st
    else
      let st1 := bumpScan st
      let nameLower := lowerS e.name
      if pruned skip e nameLower then
        walkInlineF query mode skip fuel dirPath rest st1
      else
        let fullPath := joinPath dirPath e.name
        let st2 :=
          match e with
          | .file _ => st1
          | .dir _ readable children =>
            if readable then walkInlineF query mode skip fuel fullPath children st1
            else st1
        walkInlineF query mode skip fuel dirPath rest (addMatch query mode nameLower fullPath e st2)

/-- walkInline of file_search.go: the synchronous fallback traversal of
one subtree.  The entry list is the os.ReadDir output of the directory
at dirPath; recursion into an unreadable subdirectory stops there, like
the early return on a ReadDir error.  The cap test at the head of each
iteration is the atomic found-counter check that aborts the walk once
maxResults matches exist. -/
def walkInline (query : String) (mode : SearchMode) (skip : Bool)
    (dirPath : String) (entries : List FSEntry) (st : SearchState) : SearchState :=
  walkInlineF query mode skip (entriesSize entries + 1) dirPath entries st

theorem entrySize_pos (e : FSEntry) : 1 ≤ entrySize e := by
  cases e with
  | file n => simp [entrySize]
  | dir n r c => simp only [entrySize]; omega

theorem walkInlineF_fuel (query : String) (mode : SearchMode) (skip : Bool) :
    ∀ (f1 f2 : Nat) (dirPath : String) (l : List FSEntry) (st : SearchState),
      entriesSize l < f1 → entriesSize l < f2 →
      walkInlineF query mode skip f1 dirPath l st =
        walkInlineF query mode skip f2 dirPath l st := by
  intro f1
  induction f1 with
  | zero => intro f2 dirPath l st h1 h2; omega
  | succ f1 ih =>
    intro f2 dirPath l st h1 h2
    cases f2 with
    | zero => omega
    | succ f2 =>
      cases l with
      | nil => rfl
      | cons e rest =>
        simp only [walkInlineF]
        have hre : entriesSize rest < f1 ∧ entriesSize rest < f2 := by
          have := entrySize_pos e
          simp [entriesSize] at h1 h2
          omega
        split
        · rfl
        · split
          · exact ih f2 dirPath rest (bumpScan st) hre.1 hre.2
          · cases e with
            | file n =>
              exact ih f2 dirPath rest _ hre.1 hre.2
            | dir n readable children =>
              have hch : entriesSize children < f1 ∧ entriesSize children < f2 := by
                simp [entriesSize, entrySize] at h1 h2
                omega
              cases readable with
              | false =>
                simp only [Bool.false_eq_true, ite_false]
                exact ih f2 dirPath rest _ hre.1 hre.2
              | true =>
                simp only [ite_true]
                rw [ih f2 _ children (bumpScan st) hch.1 hch.2]
                exact ih f2 dirPath rest _ hre.1 hre.2

theorem walkInline_nil (query : String) (mode : SearchMode) (skip : Bool)
    (dirPath : String) (st : SearchState) :
    walkInline query mode skip dirPath [] st = st := rfl

/-- The recursive equation of walkInline on a nonempty listing, exactly
mirroring lines 287-324 of file_search.go. -/
theorem walkInline_cons (query : String) (mode : SearchMode) (skip : Bool)
    (dirPath : String) (e : FSEntry) (rest : List FSEntry) (st : SearchState) :
    walkInline query mode skip dirPath (e :: rest) st =
      if maxResults ≤ st.found then st
      else
        let st1 := bumpScan st
        let nameLower := lowerS e.name
        if pruned skip e nameLower then
          walkInline query mode skip dirPath rest st1
        else
          let fullPath := joinPath dirPath e.name
          let st2 :=
            match e with
            | .file _ => st1
            | .dir _ readable children =>
              if readable then walkInline query mode skip fullPath children st1
              else st1
          walkInline query mode skip dirPath rest (addMatch query mode nameLower fullPath e st2) := by
  show walkInlineF query mode skip (entriesSize (e :: rest) + 1) dirPath (e :: rest) st = _
  simp only [walkInlineF]
  have hre : entriesSize rest < entriesSize (e :: rest) ∧ entriesSize rest < entriesSize rest + 1 := by
    have := entrySize_pos e
    simp [entriesSize]
    omega
  split
  · rfl
  · split
    · exact walkInlineF_fuel query mode skip _ _ dirPath rest (bumpScan st) hre.1 hre.2
    · cases e with
      | file n =>
        exact walkInlineF_fuel query mode skip _ _ dirPath rest _ hre.1 hre.2
      | dir n readable children =>
        have hch : entriesSize children < entriesSize (FSEntry.dir n readable children :: rest) ∧
            entriesSize children < entriesSize children + 1 := by
          simp [entriesSize, entrySize]
          omega
        show walkInlineF query mode skip (entriesSize (FSEntry.dir n readable children :: rest)) dirPath rest
              (addMatch query mode (lowerS (FSEntry.dir n readable children).name)
                (joinPath dirPath (FSEntry.dir n readable children).name) (FSEntry.dir n readable children)
                (if readable then
                  walkInlineF query mode skip (entriesSize (FSEntry.dir n readable children :: rest))
                    (joinPath dirPath (FSEntry.dir n readable children).name) children (bumpScan st)
                 else bumpScan st)) = _
        have harg : (if readable then
                walkInlineF query mode skip (entriesSize (FSEntry.dir n readable children :: rest))
                  (joinPath dirPath (FSEntry.dir n readable children).name) children (bumpScan st)
               else bumpScan st) =
              (if readable then
                walkInline query mode skip (joinPath dirPath (FSEntry.dir n readable children).name) children (bumpScan st)
               else bumpScan st) := by
          split
          · exact walkInlineF_fuel query mode skip _ _ _ children (bumpScan st) hch.1 hch.2
          · rfl
        rw [harg]
        exact walkInlineF_fuel query mode skip _ _ dirPath rest _ hre.1 hre.2

/-! ## The worker pool of parallelWalk, as a scheduled step system -/

/-- One buffered item of the dirQueue channel: the directory path a
worker will os.ReadDir, together with what that read will return
(failure, or the listed children). -/
structure QItem where
  path : String
  readable : Bool
  entries : List FSEntry

/-- The state shared by the workers: the channel contents and the
mutex/atomic-protected accumulators.  The queue is kept as a list; the
order in which buffered directories get processed is chosen by the
schedule (see runWalk), which models both the channel's hand-out order
and the arbitrary relative progress of the 16 workers, so the physical
position of a new item in this list carries no information. -/
structure WalkState where
  queue : List QItem
  acc : SearchState

/-- Weight of a queued item. -/
def itemW (it : QItem) : Nat := 1 + entriesSize it.entries

/-- Total weight of the queue, the termination measure of the drain. -/
def queueW : List QItem → Nat
  | [] => 0
  | it :: t => itemW it + queueW t

/-- The subdirectory hand-off of the worker loop (lines 217-227):
pending.Add(1) and a select on the channel — when the buffer has room
the subdirectory is enqueued for some worker to pick up later, and when
it is full the worker walks the subtree inline instead (walkInline on
an unreadable directory returns at once, like the ReadDir error path
inside walkInline). -/
def enqChild (query : String) (mode : SearchMode) (skip : Bool)
    (fullPath : String) (e : FSEntry) (st : WalkState) : WalkState :=
  match e with
  | .file _ => st
  | .dir _ readable children =>
    if st.queue.length < queueCap then
      { st with queue := ⟨fullPath, readable, children⟩ :: st.queue }
    else
      { st with acc :=
          if readable then walkInline query mode skip fullPath children st.acc
          else st.acc }

/-- The body of the worker's for-loop over the entries of one dequeued
directory (lines 198-247 of file_search.go): per entry, break once the
cap is reached, count it as scanned, skip pruned directories before any
other handling, hand off a subdirectory, and run the match block. -/
def workerLoop (query : String) (mode : SearchMode) (skip : Bool) :
    String → List FSEntry → WalkState → WalkState
  | _, [], st => st
  | dirPath, e :: rest, st =>
    if maxResults ≤ st.acc.found then st
    else
      let st1 : WalkState := { st with acc := bumpScan st.acc }
      let nameLower := lowerS e.name
      if pruned skip e nameLower then
        workerLoop query mode skip dirPath rest st1
      else
        let fullPath := joinPath dirPath e.name
        let st2 := enqChild query mode skip fullPath e st1
        let st3 : WalkState := { st2 with acc := addMatch query mode nameLower fullPath e st2.acc }
        workerLoop query mode skip dirPath rest st3

/-- What a worker does with one dequeued directory (lines 188-248): if
the cap is already reached the item is drained without I/O; if the
directory read fails it is skipped silently; otherwise the entry loop
runs. -/
def stepDir (query : String) (mode : SearchMode) (skip : Bool)
    (it : QItem) (st : WalkState) : WalkState :=
  if maxResults ≤ st.acc.found then st
  else if !it.readable then st
  else workerLoop query mode skip it.path it.entries st

theorem enqChild_queueW (query : String) (mode : SearchMode) (skip : Bool)
    (fullPath : String) (e : FSEntry) (st : WalkState) :
    queueW (enqChild query mode skip fullPath e st).queue ≤ queueW st.queue + entrySize e - 1 := by
  cases e with
  | file n => simp [enqChild, entrySize]
  | dir n r c =>
    simp only [enqChild]
    split
    · simp [queueW, itemW, entrySize]
      omega
    · simp [entrySize]
      omega

theorem workerLoop_queueW (query : String) (mode : SearchMode) (skip : Bool) :
    ∀ (l : List FSEntry) (dirPath : String) (st : WalkState),
      queueW (workerLoop query mode skip dirPath l st).queue ≤
        queueW st.queue + entriesSize l := by
  intro l
  induction l with
  | nil => intro dirPath st; simp [workerLoop]
  | cons e rest ih =>
    intro dirPath st
    simp only [workerLoop]
    split
    · omega
    · split
      · refine le_trans (ih _ _) ?_
        have := entrySize_pos e
        simp only [entriesSize]
        omega
      · refine le_trans (ih _ _) ?_
        have h2 := enqChild_queueW query mode skip (joinPath dirPath e.name) e
          { st with acc := bumpScan st.acc }
        have h1 := entrySize_pos e
        simp only [entriesSize]
        simp only [WalkState.mk.injEq] at h2 ⊢
        omega

theorem stepDir_queueW (query : String) (mode : SearchMode) (skip : Bool)
    (it : QItem) (st : WalkState) :
    queueW (stepDir query mode skip it st).queue ≤
      queueW st.queue + entriesSize it.entries := by
  rw [stepDir]
  split
  · omega
  · split
    · omega
    · exact workerLoop_queueW query mode skip it.entries it.path st

theorem queueW_eraseIdx :
    ∀ (l : List QItem) (i : Nat) (h : i < l.length),
      queueW (l.eraseIdx i) + itemW (l.get ⟨i, h⟩) = queueW l := by
  intro l
  induction l with
  | nil => intro i h; simp at h
  | cons a t ih =>
    intro i h
    cases i with
    | zero => simp [queueW, List.eraseIdx]; omega
    | succ j =>
      simp only [List.eraseIdx, queueW, List.get]
      have := ih j (by simpa using h)
      omega

/-- Removing the scheduled item and running the worker body on it
strictly shrinks the termination measure. -/
theorem stepDecrease (query : String) (mode : SearchMode) (skip : Bool)
    (st : WalkState) (it0 : QItem) (i : Nat) (hi : i < st.queue.length) :
    queueW (stepDir query mode skip (st.queue.getD i it0)
      { st with queue := st.queue.eraseIdx i }).queue < queueW st.queue := by
  have hget : st.queue.getD i it0 = st.queue.get ⟨i, hi⟩ := List.getD_eq_get st.queue it0 hi
  have h1 := stepDir_queueW query mode skip (st.queue.get ⟨i, hi⟩)
    { st with queue := st.queue.eraseIdx i }
  have h2 := queueW_eraseIdx st.queue i hi
  rw [hget]
  simp only [itemW] at h2
  simp only [] at h1 ⊢
  omega

/-- Fuelled drain loop of the worker pool; see runWalk. -/
def runWalkF (query : String) (mode : SearchMode) (skip : Bool) (sched : Nat → Nat) :
    Nat → Nat → WalkState → WalkState
  | 0, _, st => st
  | fuel + 1, n, st =>
    match st.queue with
    | [] => st
    | it0 :: _ =>
      let i := sched n % st.queue.length
      let it := st.queue.getD i it0
      runWalkF query mode skip sched fuel (n + 1)
        (stepDir query mode skip it { st with queue := st.queue.eraseIdx i })

theorem runWalkF_fuel (query : String) (mode : SearchMode) (skip : Bool) (sched : Nat → Nat) :
    ∀ (f1 f2 n : Nat) (st : WalkState), queueW st.queue < f1 → queueW st.queue < f2 →
      runWalkF query mode skip sched f1 n st = runWalkF query mode skip sched f2 n st := by
  intro f1
  induction f1 with
  | zero => intro f2 n st h1 h2; omega
  | succ f1 ih =>
    intro f2 n st h1 h2
    cases f2 with
    | zero => omega
    | succ f2 =>
      cases hq : st.queue with
      | nil => simp only [runWalkF]; rw [hq]
      | cons it0 rest =>
        have hi : sched n % st.queue.length < st.queue.length :=
          Nat.mod_lt _ (by rw [hq]; simp)
        have hd := stepDecrease query mode skip st it0 (sched n % st.queue.length) hi
        rw [hq] at hd h1 h2
        simp only [runWalkF]
        rw [hq]
        simp only []
        exact ih f2 (n + 1) _ (by omega) (by omega)

/-- The whole drain loop of the worker pool: while the channel holds
directories, remove one — the schedule says which, standing for both
the channel hand-out order and the arbitrary relative progress of the
16 workers — and run the worker body on it.  The run ends when every
submitted directory has been fully processed (the pending counter of
file_search.go reaching zero; see the protocol model at the end of the
file).  Defined through a fuel that the termination measure shows is
sufficient. -/
def runWalk (query : String) (mode : SearchMode) (skip : Bool)
    (sched : Nat → Nat) (n : Nat) (st : WalkState) : WalkState :=
  runWalkF query mode skip sched (queueW st.queue + 1) n st

theorem runWalk_empty (query : String) (mode : SearchMode) (skip : Bool)
    (sched : Nat → Nat) (n : Nat) (st : WalkState) (hq : st.queue = []) :
    runWalk query mode skip sched n st = st := by
  rw [runWalk, runWalkF, hq]

/-- The recursive equation of the drain loop. -/
theorem runWalk_step (query : String) (mode : SearchMode) (skip : Bool)
    (sched : Nat → Nat) (n : Nat) (st : WalkState) (it0 : QItem) (rest : List QItem)
    (hq : st.queue = it0 :: rest) :
    runWalk query mode skip sched n st =
      runWalk query mode skip sched (n + 1)
        (stepDir query mode skip (st.queue.getD (sched n % st.queue.length) it0)
          { st with queue := st.queue.eraseIdx (sched n % st.queue.length) }) := by
  have hi : sched n % st.queue.length < st.queue.length :=
    Nat.mod_lt _ (by rw [hq]; simp)
  have hd := stepDecrease query mode skip st it0 (sched n % st.queue.length) hi
  rw [runWalk, runWalk]
  conv =>
    lhs
    rw [runWalkF]
  rw [hq]
  simp only []
  rw [← hq]
  exact runWalkF_fuel query mode skip sched _ _ (n + 1) _ (by omega) (by omega)

/-! ## Seeding and the top-level parallelWalk -/

/-- The first-level seeding loop (lines 256-267): after enqueueing the
root itself, each immediate subdirectory that survives the skip test is
enqueued as well, to fan the work out quickly.  Note that this loop
neither counts entries as scanned nor runs the match block on them. -/
def seedList (skip : Bool) (rootPath : String) : List FSEntry → List QItem
  | [] => []
  | e :: rest =>
    match e with
    | .file _ => seedList skip rootPath rest
    | .dir n readable children =>
      if skip && (skipDirs (lowerS n) || startsDot (lowerS n)) then
        seedList skip rootPath rest
      else
        ⟨joinPath rootPath n, readable, children⟩ :: seedList skip rootPath rest

/-- The channel contents once seeding is done: the root (enqueued at
line 254) and, when the seeding read of the root succeeded, its
non-pruned first-level subdirectories. -/
def initQueue (skip : Bool) (root : QItem) : List QItem :=
  root :: (if root.readable then seedList skip root.path root.entries else [])

/-- The triple parallelWalk hands back to its caller.  err is the error
value of the seeding os.ReadDir(root) (line 256), which line 278
returns: true stands for a non-nil error, that is, an unreadable root. -/
structure SearchResult where
  matched : List String
  scanned : Nat
  err : Bool

/-- sort.Strings: sorts the matched paths in byte order. -/
def sortStrings (l : List String) : List String :=
  List.insertionSort (fun a b => strLe a b = true) l

/-- parallelWalk of file_search.go, for one schedule of the worker
pool: seed the queue with the root and its first-level subdirectories,
drain it with the worker body, then sort the accumulated matches and
return them with the scanned count and the root-read error.  Every
possible interleaving of the 16 workers corresponds to some schedule
(an execution where directories happen to be processed one at a time,
in the order the schedule picks). -/
def parallelWalk (query : String) (mode : SearchMode) (skip : Bool)
    (sched : Nat → Nat) (root : QItem) : SearchResult :=
  let final := runWalk query mode skip sched 0 { queue := initQueue skip root, acc := ⟨[], 0, 0⟩ }
  { matched := sortStrings final.acc.matched
    scanned := final.acc.scanned
    err := !root.readable }

/-- The schedule that always picks the head of the queue list; used as
a canonical schedule in concrete runs. -/
def headSched : Nat → Nat := fun _ => 0

/-! ## The capless reference traversal

pureChildren computes what one subtree contributes when no cap check
ever fires: the list of matches (in the accumulation order of
walkInline) and the number of entries scanned.  It is the specification
yardstick against which the capped loops are measured.  Like
walkInline, it is defined through a fuel that the wrapper makes
sufficient. -/

/-- Fuelled body of pureChildren. -/
def pureChildrenF (query : String) (mode : SearchMode) (skip : Bool) :
    Nat → String → List FSEntry → List String × Nat
  | 0, _, _ => ([], 0)
  | _ + 1, _, [] => ([], 0)
  | fuel + 1, dirPath, e :: rest =>
    let nameLower := lowerS e.name
    let pr := pureChildrenF query mode skip fuel dirPath rest
    if pruned skip e nameLower then (pr.1, 1 + pr.2)
    else
      let fullPath := joinPath dirPath e.name
      let sub : List String × Nat :=
        match e with
        | .file _ => ([], 0)
        | .dir _ readable children =>
          if readable then pureChildrenF query mode skip fuel fullPath children else ([], 0)
      let own := if rawMatch query nameLower fullPath && modeOK mode e then fullPath :: sub.1 else sub.1
      (pr.1 ++ own, 1 + sub.2 + pr.2)

/-- Capless contribution of a directory listing: the matches (in
walkInline accumulation order) and scanned count its traversal adds
when no cap is ever hit. -/
def pureChildren (query : String) (mode : SearchMode) (skip : Bool)
    (dirPath : String) (l : List FSEntry) : List String × Nat :=
  pureChildrenF query mode skip (entriesSize l + 1) dirPath l

theorem pureChildrenF_fuel (query : String) (mode : SearchMode) (skip : Bool) :
    ∀ (f1 f2 : Nat) (dirPath : String) (l : List FSEntry),
      entriesSize l < f1 → entriesSize l < f2 →
      pureChildrenF query mode skip f1 dirPath l =
        pureChildrenF query mode skip f2 dirPath l := by
  intro f1
  induction f1 with
  | zero => intro f2 dirPath l h1 h2; omega
  | succ f1 ih =>
    intro f2 dirPath l h1 h2
    cases f2 with
    | zero => omega
    | succ f2 =>
      cases l with
      | nil => rfl
      | cons e rest =>
        have hre : entriesSize rest < f1 ∧ entriesSize rest < f2 := by
          have := entrySize_pos e
          simp [entriesSize] at h1 h2
          omega
        simp only [pureChildrenF]
        rw [ih f2 dirPath rest hre.1 hre.2]
        cases e with
        | file n => rfl
        | dir n readable children =>
          have hch : entriesSize children < f1 ∧ entriesSize children < f2 := by
            simp [entriesSize, entrySize] at h1 h2
            omega
          simp only []
          cases readable with
          | false => rfl
          | true =>
            rw [ih f2 _ children hch.1 hch.2]

theorem pureChildren_nil (query : String) (mode : SearchMode) (skip : Bool)
    (dirPath : String) : pureChildren query mode skip dirPath [] = ([], 0) := rfl

/-- The recursive equation of pureChildren. -/
theorem pureChildren_cons (query : String) (mode : SearchMode) (skip : Bool)
    (dirPath : String) (e : FSEntry) (rest : List FSEntry) :
    pureChildren query mode skip dirPath (e :: rest) =
      let nameLower := lowerS e.name
      let pr := pureChildren query mode skip dirPath rest
      if pruned skip e nameLower then (pr.1, 1 + pr.2)
      else
        let fullPath := joinPath dirPath e.name
        let sub : List String × Nat :=
          match e with
          | .file _ => ([], 0)
          | .dir _ readable children =>
            if readable then pureChildren query mode skip fullPath children else ([], 0)
        let own := if rawMatch query nameLower fullPath && modeOK mode e then fullPath :: sub.1 else sub.1
        (pr.1 ++ own, 1 + sub.2 + pr.2) := by
  show pureChildrenF query mode skip (entriesSize (e :: rest) + 1) dirPath (e :: rest) = _
  have hre : entriesSize rest < entriesSize (e :: rest) ∧ entriesSize rest < entriesSize rest + 1 := by
    have := entrySize_pos e
    simp [entriesSize]
    omega
  simp only [pureChildrenF]
  rw [pureChildrenF_fuel query mode skip _ _ dirPath rest hre.1 hre.2]
  cases e with
  | file n => rfl
  | dir n readable children =>
    have hch : entriesSize children < entriesSize (FSEntry.dir n readable children :: rest) ∧
        entriesSize children < entriesSize children + 1 := by
      simp [entriesSize, entrySize]
      omega
    simp only []
    cases readable with
    | false => rfl
    | true =>
      rw [pureChildrenF_fuel query mode skip _ _ _ children hch.1 hch.2]
      rfl

/-- Capless contribution of one queued directory: nothing when its
read fails, its listing's contribution otherwise. -/
def pureItem (query : String) (mode : SearchMode) (skip : Bool) (it : QItem) :
    List String × Nat :=
  if it.readable then pureChildren query mode skip it.path it.entries else ([], 0)

/-- Total capless contribution of a queue. -/
def pureQueue (query : String) (mode : SearchMode) (skip : Bool) :
    List QItem → List String × Nat
  | [] => ([], 0)
  | it :: t =>
    let pi := pureItem query mode skip it
    let pt := pureQueue query mode skip t
    (pt.1 ++ pi.1, pi.2 + pt.2)

/-! ## Conservation: the capped loops against the capless reference -/

theorem walkInlineF_pure (query : String) (mode : SearchMode) (skip : Bool) :
    ∀ (fuel : Nat) (l : List FSEntry) (dirPath : String) (st : SearchState),
      entriesSize l < fuel →
      st.found + (pureChildren query mode skip dirPath l).1.length < maxResults →
      walkInlineF query mode skip fuel dirPath l st =
        ⟨(pureChildren query mode skip dirPath l).1 ++ st.matched,
         st.scanned + (pureChildren query mode skip dirPath l).2,
         st.found + (pureChildren query mode skip dirPath l).1.length⟩ := by
  intro fuel
  induction fuel with
  | zero => intro l dirPath st h1 h2; omega
  | succ fuel ih =>
    intro l dirPath st h1 h2
    cases l with
    | nil => simp [walkInlineF, pureChildren, pureChildrenF]
    | cons e rest =>
      have hre : entriesSize rest < fuel := by
        have := entrySize_pos e
        simp [entriesSize] at h1
        omega
      rw [pureChildren_cons] at h2 ⊢
      simp only [walkInlineF]
      have hcap : ¬ (maxResults ≤ st.found) := by
        try simp only [] at h2
        split at h2 <;> omega
      rw [if_neg hcap]
      try simp only []
      split
      · rename_i hp
        try simp only [if_pos hp] at h2
        rw [ih rest dirPath (bumpScan st) hre (by simp [bumpScan]; omega)]
        simp [bumpScan]
        omega
      · rename_i hp
        try simp only [if_neg hp] at h2
        cases e with
        | file n =>
          try simp only [] at h2 ⊢
          by_cases hm : (rawMatch query (lowerS (FSEntry.file n).name)
              (joinPath dirPath (FSEntry.file n).name) && modeOK mode (FSEntry.file n)) = true
          · rw [if_pos hm] at h2
            rw [ih rest dirPath _ hre ?hb]
            case hb =>
              simp [addMatch, hm, bumpScan]
              simp at h2
              omega
            simp [addMatch, hm, bumpScan, List.append_assoc]
            try constructor
            all_goals try simp
            all_goals try omega
          · rw [if_neg hm] at h2
            rw [ih rest dirPath _ hre ?hb]
            case hb =>
              simp [addMatch, hm, bumpScan]
              simp at h2
              omega
            simp [addMatch, hm, bumpScan, List.append_assoc]
            try constructor
            all_goals try simp
            all_goals try omega
        | dir n readable children =>
          have hch : entriesSize children < fuel := by
            simp [entriesSize, entrySize] at h1
            omega
          try simp only [] at h2 ⊢
          cases readable with
          | false =>
            simp only [Bool.false_eq_true, ite_false] at h2 ⊢
            by_cases hm : (rawMatch query (lowerS (FSEntry.dir n false children).name)
                (joinPath dirPath (FSEntry.dir n false children).name) &&
                modeOK mode (FSEntry.dir n false children)) = true
            · rw [if_pos hm] at h2
              rw [ih rest dirPath _ hre ?hb]
              case hb =>
                simp [addMatch, hm, bumpScan]
                simp at h2
                omega
              simp [addMatch, hm, bumpScan, List.append_assoc]
              try constructor
              all_goals try simp
              all_goals try omega
            · rw [if_neg hm] at h2
              rw [ih rest dirPath _ hre ?hb]
              case hb =>
                simp [addMatch, hm, bumpScan]
                simp at h2
                omega
              simp [addMatch, hm, bumpScan, List.append_assoc]
              try constructor
              all_goals try simp
              all_goals try omega
          | true =>
            simp only [ite_true] at h2 ⊢
            have hsubbound : (bumpScan st).found +
                (pureChildren query mode skip (joinPath dirPath (FSEntry.dir n true children).name)
                  children).1.length < maxResults := by
              simp [bumpScan]
              try simp only [] at h2
              split at h2 <;> simp at h2 <;> omega
            rw [ih children _ (bumpScan st) hch hsubbound]
            by_cases hm : (rawMatch query (lowerS (FSEntry.dir n true children).name)
                (joinPath dirPath (FSEntry.dir n true children).name) &&
                modeOK mode (FSEntry.dir n true children)) = true
            · rw [if_pos hm] at h2
              rw [ih rest dirPath _ hre ?hb]
              case hb =>
                simp [addMatch, hm, bumpScan]
                simp at h2
                omega
              simp [addMatch, hm, bumpScan, List.append_assoc]
              try constructor
              all_goals try simp
              all_goals try omega
            · rw [if_neg hm] at h2
              rw [ih rest dirPath _ hre ?hb]
              case hb =>
                simp [addMatch, hm, bumpScan]
                simp at h2
                omega
              simp [addMatch, hm, bumpScan, List.append_assoc]
              try constructor
              all_goals try simp
              all_goals try omega

/-- walkInline behaves caplessly (and equals the reference traversal)
whenever the cap stays strictly out of reach. -/
theorem walkInline_pure (query : String) (mode : SearchMode) (skip : Bool)
    (l : List FSEntry) (dirPath : String) (st : SearchState)
    (h : st.found + (pureChildren query mode skip dirPath l).1.length < maxResults) :
    walkInline query mode skip dirPath l st =
      ⟨(pureChildren query mode skip dirPath l).1 ++ st.matched,
       st.scanned + (pureChildren query mode skip dirPath l).2,
       st.found + (pureChildren query mode skip dirPath l).1.length⟩ :=
  walkInlineF_pure query mode skip (entriesSize l + 1) l dirPath st (Nat.lt_succ_self _) h

theorem addMatch_eq (query : String) (mode : SearchMode) (nameLower fullPath : String)
    (e : FSEntry) (st : SearchState) :
    addMatch query mode nameLower fullPath e st =
      ⟨(if rawMatch query nameLower fullPath && modeOK mode e then [fullPath] else []) ++ st.matched,
       st.scanned,
       st.found + (if rawMatch query nameLower fullPath && modeOK mode e
         then ([fullPath] : List String) else []).length⟩ := by
  simp only [addMatch]
  split <;> simp

theorem consIf_append (c : Prop) [Decidable c] (x : String) (s : List String) :
    (if c then x :: s else s) = (if c then [x] else []) ++ s := by
  split <;> simp

theorem pureQueue_append (query : String) (mode : SearchMode) (skip : Bool) :
    ∀ (a b : List QItem),
      (pureQueue query mode skip (a ++ b)).2 =
        (pureQueue query mode skip a).2 + (pureQueue query mode skip b).2 ∧
      (pureQueue query mode skip (a ++ b)).1.Perm
        ((pureQueue query mode skip a).1 ++ (pureQueue query mode skip b).1) := by
  intro a b
  induction a with
  | nil => simp [pureQueue]
  | cons it t ih =>
    simp only [List.cons_append, pureQueue]
    simp only [List.append_eq]
    constructor
    · rw [ih.1]
      omega
    · refine (ih.2.append_right _).trans ?_
      rw [List.append_assoc, List.append_assoc]
      exact List.Perm.append_left _ List.perm_append_comm

theorem perm_shuffle (a x b : List String) :
    List.Perm ((a ++ x) ++ b) ((a ++ b) ++ x) := by
  rw [List.append_assoc, List.append_assoc]
  exact List.Perm.append_left a List.perm_append_comm

theorem perm_swap_mid (a x b y : List String) :
    List.Perm ((a ++ x) ++ (b ++ y)) ((a ++ b) ++ (x ++ y)) := by
  refine (perm_shuffle a x (b ++ y)).trans ?_
  rw [← List.append_assoc, List.append_assoc (a ++ b)]
  exact List.Perm.append_left (a ++ b) List.perm_append_comm

/-- One dequeued directory step, measured against the capless
reference: when the cap is strictly out of reach, the worker's entry
loop adds exactly the reference contribution, part as immediate matches
and scans and part as newly queued subdirectories. -/
theorem workerLoop_pure (query : String) (mode : SearchMode) (skip : Bool) :
    ∀ (l : List FSEntry) (dirPath : String) (st : WalkState),
      st.acc.found + (pureChildren query mode skip dirPath l).1.length < maxResults →
      ∃ (new : List QItem) (dm : List String),
        (workerLoop query mode skip dirPath l st).queue = new ++ st.queue ∧
        (workerLoop query mode skip dirPath l st).acc.matched = dm ++ st.acc.matched ∧
        (workerLoop query mode skip dirPath l st).acc.found = st.acc.found + dm.length ∧
        (workerLoop query mode skip dirPath l st).acc.scanned + (pureQueue query mode skip new).2 =
          st.acc.scanned + (pureChildren query mode skip dirPath l).2 ∧
        List.Perm (dm ++ (pureQueue query mode skip new).1)
          (pureChildren query mode skip dirPath l).1 := by
  intro l
  induction l with
  | nil =>
    intro dirPath st h
    exact ⟨[], [], by simp [workerLoop], by simp [workerLoop], by simp [workerLoop],
      by simp [workerLoop, pureQueue, pureChildren, pureChildrenF],
      by simp [pureQueue, pureChildren, pureChildrenF]⟩
  | cons e rest ih =>
    intro dirPath st h
    rw [pureChildren_cons] at h
    try simp only [] at h
    have hcap : ¬ (maxResults ≤ st.acc.found) := by
      split at h <;> omega
    rw [pureChildren_cons]
    try simp only []
    simp only [workerLoop]
    rw [if_neg hcap]
    try simp only []
    split
    · -- pruned entry
      rename_i hp
      rw [if_pos hp] at h
      try simp only [] at h
      obtain ⟨new, dm, hq, hmm2, hf, hs, hperm⟩ :=
        ih dirPath { st with acc := bumpScan st.acc } (by simp [bumpScan]; omega)
      refine ⟨new, dm, ?_, ?_, ?_, ?_, ?_⟩
      · simpa using hq
      · simpa [bumpScan] using hmm2
      · simpa [bumpScan] using hf
      · try simp [bumpScan] at hs ⊢
        omega
      · try simp only []
        exact hperm
    · rename_i hp
      rw [if_neg hp] at h
      cases e with
      | file n =>
        try simp only [] at h ⊢
        have henq : enqChild query mode skip (joinPath dirPath (FSEntry.file n).name)
            (FSEntry.file n) { st with acc := bumpScan st.acc } =
            { st with acc := bumpScan st.acc } := rfl
        rw [henq, addMatch_eq]
        set c := (rawMatch query (lowerS (FSEntry.file n).name)
          (joinPath dirPath (FSEntry.file n).name) && modeOK mode (FSEntry.file n)) = true with hc
        set ownL : List String :=
          if c then [joinPath dirPath (FSEntry.file n).name] else [] with hown
        have hst3bound : ({ st with acc :=
            ⟨ownL ++ (bumpScan st.acc).matched, (bumpScan st.acc).scanned,
              (bumpScan st.acc).found + ownL.length⟩ } : WalkState).acc.found +
            (pureChildren query mode skip dirPath rest).1.length < maxResults := by
          simp only [bumpScan]
          try simp only [] at h ⊢
          try simp [List.length_append] at h ⊢
          omega
        obtain ⟨new, dm, hq, hmm2, hf, hs, hperm⟩ := ih dirPath _ hst3bound
        refine ⟨new, dm ++ ownL, ?_, ?_, ?_, ?_, ?_⟩
        · simpa using hq
        · rw [hmm2]
          simp [bumpScan, List.append_assoc]
        · rw [hf]
          simp [bumpScan]
          omega
        · try simp [bumpScan] at hs ⊢
          omega
        · try simp only []
          refine (perm_shuffle dm ownL _).trans ?_
          exact hperm.append_right ownL
      | dir n readable children =>
        try simp only [] at h ⊢
        set fp := joinPath dirPath (FSEntry.dir n readable children).name with hfp
        set c := (rawMatch query (lowerS (FSEntry.dir n readable children).name) fp &&
          modeOK mode (FSEntry.dir n readable children)) = true with hc
        set ownL : List String := if c then [fp] else [] with hown
        set subp : List String × Nat :=
          if readable then pureChildren query mode skip fp children else ([], 0) with hsubp
        rw [consIf_append, ← hown] at h ⊢
        have hlen : ((pureChildren query mode skip dirPath rest).1 ++ (ownL ++ subp.1)).length =
            (pureChildren query mode skip dirPath rest).1.length + ownL.length + subp.1.length := by
          simp
          omega
        rw [hlen] at h
        simp only [enqChild]
        split
        · -- room in the channel: the subdirectory is enqueued
          rename_i hroom
          set itc : QItem := ⟨fp, readable, children⟩ with hitc
          try simp only []
          rw [addMatch_eq, ← hown]
          simp only [bumpScan]
          try simp only []
          obtain ⟨new, dm, hq, hmm2, hf, hs, hperm⟩ := ih dirPath
            { queue := itc :: st.queue,
              acc := ⟨ownL ++ st.acc.matched, st.acc.scanned + 1, st.acc.found + ownL.length⟩ }
            (by try simp only []; omega)
          refine ⟨new ++ [itc], dm ++ ownL, ?_, ?_, ?_, ?_, ?_⟩
          · rw [hq]
            simp
          · rw [hmm2]
            simp [List.append_assoc]
          · rw [hf]
            simp
            omega
          · rw [(pureQueue_append query mode skip new [itc]).1]
            have hpi2 : (pureQueue query mode skip [itc]).2 = subp.2 := by
              simp [pureQueue, pureItem, hitc, hsubp]
            rw [hpi2]
            try simp only [] at hs ⊢
            omega
          · have hpa2 := (pureQueue_append query mode skip new [itc]).2
            have hpi1 : (pureQueue query mode skip [itc]).1 = subp.1 := by
              simp [pureQueue, pureItem, hitc, hsubp]
            rw [hpi1] at hpa2
            try simp only []
            refine (List.Perm.append_left (dm ++ ownL) hpa2).trans ?_
            refine (perm_swap_mid dm ownL (pureQueue query mode skip new).1 subp.1).trans ?_
            exact hperm.append_right (ownL ++ subp.1)
        · -- channel full: the subtree is walked inline
          rename_i hroom
          try simp only []
          have hsubbound : st.acc.found + subp.1.length < maxResults := by
            omega
          have hinl : (if readable = true
                then walkInline query mode skip fp children (bumpScan st.acc)
                else bumpScan st.acc) =
              ⟨subp.1 ++ st.acc.matched, st.acc.scanned + 1 + subp.2,
                st.acc.found + subp.1.length⟩ := by
            cases readable with
            | false =>
              have hz : subp = (([] : List String), 0) := by rw [hsubp]; simp
              rw [hz]
              try simp [bumpScan]
            | true =>
              have hz : subp = pureChildren query mode skip fp children := by rw [hsubp]; simp
              rw [if_pos rfl, hz]
              rw [walkInline_pure query mode skip children fp (bumpScan st.acc)
                (by simp [bumpScan]; rw [hz] at hsubbound; omega)]
              simp [bumpScan]
              try omega
          rw [hinl, addMatch_eq, ← hown]
          try simp only []
          obtain ⟨new, dm, hq, hmm2, hf, hs, hperm⟩ := ih dirPath
            { queue := st.queue,
              acc := ⟨ownL ++ (subp.1 ++ st.acc.matched), st.acc.scanned + 1 + subp.2,
                st.acc.found + subp.1.length + ownL.length⟩ }
            (by try simp only []; omega)
          refine ⟨new, dm ++ (ownL ++ subp.1), ?_, ?_, ?_, ?_, ?_⟩
          · simpa using hq
          · rw [hmm2]
            simp [List.append_assoc]
          · rw [hf]
            simp
            omega
          · try simp only [] at hs ⊢
            omega
          · try simp only []
            refine (perm_shuffle dm (ownL ++ subp.1) (pureQueue query mode skip new).1).trans ?_
            exact hperm.append_right (ownL ++ subp.1)

/-- stepDir against the capless reference. -/
theorem stepDir_pure (query : String) (mode : SearchMode) (skip : Bool)
    (it : QItem) (st : WalkState)
    (hb : st.acc.found + (pureItem query mode skip it).1.length < maxResults) :
    ∃ (new : List QItem) (dm : List String),
      (stepDir query mode skip it st).queue = new ++ st.queue ∧
      (stepDir query mode skip it st).acc.matched = dm ++ st.acc.matched ∧
      (stepDir query mode skip it st).acc.found = st.acc.found + dm.length ∧
      (stepDir query mode skip it st).acc.scanned + (pureQueue query mode skip new).2 =
        st.acc.scanned + (pureItem query mode skip it).2 ∧
      List.Perm (dm ++ (pureQueue query mode skip new).1) (pureItem query mode skip it).1 := by
  rw [stepDir]
  have hcap : ¬ (maxResults ≤ st.acc.found) := by omega
  rw [if_neg hcap]
  cases hr : it.readable with
  | false =>
    rw [if_pos (by simp [hr])]
    exact ⟨[], [], by simp, by simp, by simp,
      by simp [pureQueue, pureItem, hr], by simp [pureQueue, pureItem, hr]⟩
  | true =>
    rw [if_neg (by simp [hr])]
    have hb2 : st.acc.found + (pureChildren query mode skip it.path it.entries).1.length <
        maxResults := by
      simpa [pureItem, hr] using hb
    obtain ⟨new, dm, h1, h2, h3, h4, h5⟩ := workerLoop_pure query mode skip it.entries it.path st hb2
    exact ⟨new, dm, h1, h2, h3, by simpa [pureItem, hr] using h4, by simpa [pureItem, hr] using h5⟩

theorem pick_perm : ∀ (l : List QItem) (i : Nat) (h : i < l.length),
    List.Perm l (l.get ⟨i, h⟩ :: l.eraseIdx i) := by
  intro l
  induction l with
  | nil => intro i h; simp at h
  | cons a t ih =>
    intro i h
    cases i with
    | zero => simp
    | succ j =>
      have hj : j < t.length := by simpa using h
      simp only [List.get, List.eraseIdx]
      refine ((ih j hj).cons a).trans ?_
      exact List.Perm.swap _ _ _

theorem pureQueue_perm (query : String) (mode : SearchMode) (skip : Bool)
    {a b : List QItem} (hp : List.Perm a b) :
    (pureQueue query mode skip a).2 = (pureQueue query mode skip b).2 ∧
    List.Perm (pureQueue query mode skip a).1 (pureQueue query mode skip b).1 := by
  induction hp with
  | nil => exact ⟨rfl, List.Perm.refl _⟩
  | cons x hp ih =>
    simp only [pureQueue]
    exact ⟨by rw [ih.1], ih.2.append_right _⟩
  | swap x y l =>
    simp only [pureQueue]
    constructor
    · omega
    · exact perm_shuffle (pureQueue query mode skip l).1 _ _
  | trans h1 h2 ih1 ih2 =>
    exact ⟨ih1.1.trans ih2.1, ih1.2.trans ih2.2⟩

/-- The drain loop always terminates with an empty queue: every
submitted directory is eventually taken by some worker. -/
theorem runWalk_queue_nil (query : String) (mode : SearchMode) (skip : Bool)
    (sched : Nat → Nat) :
    ∀ (W : Nat) (st : WalkState) (n : Nat), queueW st.queue ≤ W →
      (runWalk query mode skip sched n st).queue = [] := by
  intro W
  induction W with
  | zero =>
    intro st n hW
    cases hq : st.queue with
    | nil => rw [runWalk_empty query mode skip sched n st hq, hq]
    | cons it0 rest =>
      exfalso
      have := itemW it0
      rw [hq] at hW
      simp [queueW, itemW] at hW
  | succ W ih =>
    intro st n hW
    cases hq : st.queue with
    | nil => rw [runWalk_empty query mode skip sched n st hq, hq]
    | cons it0 rest =>
      rw [runWalk_step query mode skip sched n st it0 rest hq]
      refine ih _ (n + 1) ?_
      have hi : sched n % st.queue.length < st.queue.length :=
        Nat.mod_lt _ (by rw [hq]; simp)
      have hd := stepDecrease query mode skip st it0 (sched n % st.queue.length) hi
      omega

/-- Once the found counter has reached the cap, draining the rest of
the queue changes nothing: every remaining directory is dropped without
I/O (lines 189-192). -/
theorem runWalk_drain (query : String) (mode : SearchMode) (skip : Bool)
    (sched : Nat → Nat) :
    ∀ (W : Nat) (st : WalkState) (n : Nat), queueW st.queue ≤ W →
      maxResults ≤ st.acc.found →
      (runWalk query mode skip sched n st).acc = st.acc := by
  intro W
  induction W with
  | zero =>
    intro st n hW hcap
    cases hq : st.queue with
    | nil => rw [runWalk_empty query mode skip sched n st hq]
    | cons it0 rest =>
      exfalso
      rw [hq] at hW
      simp [queueW, itemW] at hW
  | succ W ih =>
    intro st n hW hcap
    cases hq : st.queue with
    | nil => rw [runWalk_empty query mode skip sched n st hq]
    | cons it0 rest =>
      rw [runWalk_step query mode skip sched n st it0 rest hq]
      have hi : sched n % st.queue.length < st.queue.length :=
        Nat.mod_lt _ (by rw [hq]; simp)
      have hd := stepDecrease query mode skip st it0 (sched n % st.queue.length) hi
      have hstep : stepDir query mode skip (st.queue.getD (sched n % st.queue.length) it0)
          { st with queue := st.queue.eraseIdx (sched n % st.queue.length) } =
          { st with queue := st.queue.eraseIdx (sched n % st.queue.length) } := by
        rw [stepDir, if_pos hcap]
      rw [hstep]
      refine ih _ (n + 1) ?_ hcap
      have he := queueW_eraseIdx st.queue (sched n % st.queue.length) hi
      simp only [itemW] at he
      try simp only []
      omega

/-- The whole drain loop against the capless reference: as long as the
total number of capless matches stays strictly under the cap, the run
scans exactly the reference count and accumulates exactly the reference
multiset of matches, for every schedule. -/
theorem runWalk_pure (query : String) (mode : SearchMode) (skip : Bool)
    (sched : Nat → Nat) :
    ∀ (W : Nat) (st : WalkState) (n : Nat),
      queueW st.queue ≤ W →
      st.acc.found + (pureQueue query mode skip st.queue).1.length < maxResults →
      (runWalk query mode skip sched n st).acc.scanned =
        st.acc.scanned + (pureQueue query mode skip st.queue).2 ∧
      (runWalk query mode skip sched n st).acc.found =
        st.acc.found + (pureQueue query mode skip st.queue).1.length ∧
      List.Perm (runWalk query mode skip sched n st).acc.matched
        ((pureQueue query mode skip st.queue).1 ++ st.acc.matched) := by
  intro W
  induction W with
  | zero =>
    intro st n hW hb
    cases hq : st.queue with
    | nil =>
      rw [runWalk_empty query mode skip sched n st hq]
      simp [hq, pureQueue]
    | cons it0 rest =>
      exfalso
      rw [hq] at hW
      simp [queueW, itemW] at hW
  | succ W ih =>
    intro st n hW hb
    cases hq : st.queue with
    | nil =>
      rw [runWalk_empty query mode skip sched n st hq]
      simp [hq, pureQueue]
    | cons it0 rest =>
      rw [runWalk_step query mode skip sched n st it0 rest hq]
      rw [← hq]
      have hi : sched n % st.queue.length < st.queue.length :=
        Nat.mod_lt _ (by rw [hq]; simp)
      have hgd : st.queue.getD (sched n % st.queue.length) it0 =
          st.queue.get ⟨sched n % st.queue.length, hi⟩ :=
        List.getD_eq_get st.queue it0 hi
      -- decompose the queue contribution around the picked item
      have hperm0 : List.Perm st.queue
          (st.queue.get ⟨sched n % st.queue.length, hi⟩ ::
            st.queue.eraseIdx (sched n % st.queue.length)) :=
        pick_perm st.queue (sched n % st.queue.length) hi
      have hpq := pureQueue_perm query mode skip hperm0
      have hdec2 : (pureQueue query mode skip st.queue).2 =
          (pureItem query mode skip (st.queue.get ⟨sched n % st.queue.length, hi⟩)).2 +
          (pureQueue query mode skip (st.queue.eraseIdx (sched n % st.queue.length))).2 := by
        rw [hpq.1]
        simp [pureQueue]
      have hdec1 : List.Perm (pureQueue query mode skip st.queue).1
          ((pureQueue query mode skip (st.queue.eraseIdx (sched n % st.queue.length))).1 ++
            (pureItem query mode skip (st.queue.get ⟨sched n % st.queue.length, hi⟩)).1) := by
        refine hpq.2.trans ?_
        simp [pureQueue]
      have hlen1 : (pureQueue query mode skip st.queue).1.length =
          (pureQueue query mode skip (st.queue.eraseIdx (sched n % st.queue.length))).1.length +
          (pureItem query mode skip (st.queue.get ⟨sched n % st.queue.length, hi⟩)).1.length := by
        rw [hdec1.length_eq]
        simp
      -- run the worker body on the picked item
      have hbound : ({ st with queue := st.queue.eraseIdx (sched n % st.queue.length) } :
          WalkState).acc.found +
          (pureItem query mode skip (st.queue.get ⟨sched n % st.queue.length, hi⟩)).1.length <
          maxResults := by
        try simp only []
        omega
      obtain ⟨new, dm, h1, h2, h3, h4, h5⟩ := stepDir_pure query mode skip
        (st.queue.get ⟨sched n % st.queue.length, hi⟩)
        { st with queue := st.queue.eraseIdx (sched n % st.queue.length) } hbound
      rw [hgd]
      have hd := stepDecrease query mode skip st it0 (sched n % st.queue.length) hi
      rw [hgd] at hd
      set st' := stepDir query mode skip (st.queue.get ⟨sched n % st.queue.length, hi⟩)
        { st with queue := st.queue.eraseIdx (sched n % st.queue.length) } with hst'
      have hW' : queueW st'.queue ≤ W := by omega
      have hq' : st'.queue = new ++ st.queue.eraseIdx (sched n % st.queue.length) := by
        simpa using h1
      have hpq' := pureQueue_append query mode skip new
        (st.queue.eraseIdx (sched n % st.queue.length))
      have hlen5 := h5.length_eq
      have hlenq' : (pureQueue query mode skip st'.queue).1.length =
          (pureQueue query mode skip new).1.length +
          (pureQueue query mode skip (st.queue.eraseIdx (sched n % st.queue.length))).1.length := by
        rw [hq']
        rw [hpq'.2.length_eq]
        simp
      have hbound' : st'.acc.found + (pureQueue query mode skip st'.queue).1.length <
          maxResults := by
        have h3' : st'.acc.found = st.acc.found + dm.length := by simpa using h3
        rw [List.length_append] at hlen5
        omega
      obtain ⟨ihs, ihf, ihm⟩ := ih st' (n + 1) hW' hbound'
      refine ⟨?_, ?_, ?_⟩
      · rw [ihs]
        have h4' : st'.acc.scanned + (pureQueue query mode skip new).2 =
            st.acc.scanned +
            (pureItem query mode skip (st.queue.get ⟨sched n % st.queue.length, hi⟩)).2 := by
          simpa using h4
        have hdq2 : (pureQueue query mode skip st'.queue).2 =
            (pureQueue query mode skip new).2 +
            (pureQueue query mode skip (st.queue.eraseIdx (sched n % st.queue.length))).2 := by
          rw [hq', hpq'.1]
        omega
      · rw [ihf]
        have h3' : st'.acc.found = st.acc.found + dm.length := by simpa using h3
        rw [List.length_append] at hlen5
        omega
      · refine ihm.trans ?_
        have h2' : st'.acc.matched = dm ++ st.acc.matched := by simpa using h2
        rw [h2', hq']
        -- (pq (new ++ erase)).1 ++ (dm ++ matched) ~ (pq queue).1 ++ matched
        refine @List.Perm.trans _ _
          ((((pureQueue query mode skip new).1 ++
            (pureQueue query mode skip (st.queue.eraseIdx (sched n % st.queue.length))).1) ++
            (dm ++ st.acc.matched))) _ (hpq'.2.append_right _) ?_
        rw [← List.append_assoc]
        refine List.Perm.trans (List.Perm.append_right st.acc.matched ?_)
          ((hdec1.symm.append_right st.acc.matched))
        -- ((pqnew ++ pqerase) ++ dm) ~ pqerase ++ pi
        refine List.Perm.trans (List.perm_append_comm) ?_
        -- dm ++ (pqnew ++ pqerase)
        rw [← List.append_assoc]
        refine List.Perm.trans (List.Perm.append_right _ h5) ?_
        exact List.perm_append_comm

/-! ## sort.Strings: correctness of the final sort -/

theorem charListLe_total : ∀ (a b : List Char),
    charListLe a b = true ∨ charListLe b a = true := by
  intro a
  induction a with
  | nil => intro b; left; rfl
  | cons x xs ih =>
    intro b
    cases b with
    | nil => right; rfl
    | cons y ys =>
      simp only [charListLe]
      by_cases h1 : x.toNat < y.toNat
      · left; simp [h1]
      · by_cases h2 : y.toNat < x.toNat
        · right; simp [h1, h2]
        · have := ih ys
          simp [h1, h2]
          exact this

theorem charListLe_trans : ∀ (a b c : List Char),
    charListLe a b = true → charListLe b c = true → charListLe a c = true := by
  intro a
  induction a with
  | nil => intro b c h1 h2; rfl
  | cons x xs ih =>
    intro b c h1 h2
    cases b with
    | nil => simp [charListLe] at h1
    | cons y ys =>
      cases c with
      | nil => simp [charListLe] at h2
      | cons z zs =>
        simp only [charListLe] at h1 h2 ⊢
        by_cases hxy : x.toNat < y.toNat
        · by_cases hyz : y.toNat < z.toNat
          · simp [show x.toNat < z.toNat by omega]
          · by_cases hzy : z.toNat < y.toNat
            · simp [hyz, hzy] at h2
            · have : y.toNat = z.toNat := by omega
              simp [show x.toNat < z.toNat by omega]
        · by_cases hyx : y.toNat < x.toNat
          · simp [hxy, hyx] at h1
          · have hxyeq : x.toNat = y.toNat := by omega
            by_cases hyz : y.toNat < z.toNat
            · simp [show x.toNat < z.toNat by omega]
            · by_cases hzy : z.toNat < y.toNat
              · simp [hyz, hzy] at h2
              · simp [hxy, hyx] at h1
                simp [hyz, hzy] at h2
                simp [show ¬ x.toNat < z.toNat by omega, show ¬ z.toNat < x.toNat by omega]
                exact ih ys zs h1 h2

theorem char_toNat_inj {a b : Char} (h : a.toNat = b.toNat) : a = b :=
  Char.ext (UInt32.ext h)

theorem charListLe_antisymm : ∀ (a b : List Char),
    charListLe a b = true → charListLe b a = true → a = b := by
  intro a
  induction a with
  | nil =>
    intro b h1 h2
    cases b with
    | nil => rfl
    | cons y ys => simp [charListLe] at h2
  | cons x xs ih =>
    intro b h1 h2
    cases b with
    | nil => simp [charListLe] at h1
    | cons y ys =>
      simp only [charListLe] at h1 h2
      by_cases hxy : x.toNat < y.toNat
      · simp [show ¬ y.toNat < x.toNat by omega, hxy] at h2
      · by_cases hyx : y.toNat < x.toNat
        · simp [hxy, hyx] at h1
        · simp [hxy, hyx] at h1 h2
          have : x = y := char_toNat_inj (by omega)
          rw [this, ih ys h1 h2]

/-- The byte order as a relation, the way sortStrings uses it. -/
def strLeRel (a b : String) : Prop := strLe a b = true

instance : DecidableRel strLeRel := fun a b => by
  unfold strLeRel
  infer_instance

instance : IsTotal String strLeRel :=
  ⟨fun a b => charListLe_total a.data b.data⟩

instance : IsTrans String strLeRel :=
  ⟨fun a b c h1 h2 => charListLe_trans a.data b.data c.data h1 h2⟩

theorem string_data_inj {a b : String} (h : a.data = b.data) : a = b := by
  cases a
  cases b
  simp at h
  rw [h]

instance : IsAntisymm String strLeRel :=
  ⟨fun a b h1 h2 => string_data_inj (charListLe_antisymm a.data b.data h1 h2)⟩

theorem sortStrings_def (l : List String) :
    sortStrings l = List.insertionSort strLeRel l := rfl

theorem sortStrings_perm (l : List String) : List.Perm (sortStrings l) l :=
  List.perm_insertionSort strLeRel l

theorem sortStrings_sorted (l : List String) : List.Sorted strLeRel (sortStrings l) :=
  List.sorted_insertionSort strLeRel l

/-- Sorting is a function of the multiset of inputs: the final sorted
output does not depend on the order matches were accumulated in. -/
theorem sortStrings_eq_of_perm {l1 l2 : List String} (h : List.Perm l1 l2) :
    sortStrings l1 = sortStrings l2 :=
  List.eq_of_perm_of_sorted
    (((sortStrings_perm l1).trans h).trans (sortStrings_perm l2).symm)
    (sortStrings_sorted l1) (sortStrings_sorted l2)

theorem mem_sortStrings {x : String} {l : List String} :
    x ∈ sortStrings l ↔ x ∈ l :=
  (sortStrings_perm l).mem_iff

/-! ## Top-level facts about parallelWalk -/

theorem maxResults_pos : 0 < maxResults := by decide

/-- Effect of a whole search under a given schedule, when the capless
total stays under the cap. -/
theorem parallelWalk_pure (query : String) (mode : SearchMode) (skip : Bool)
    (sched : Nat → Nat) (root : QItem)
    (h : (pureQueue query mode skip (initQueue skip root)).1.length < maxResults) :
    (parallelWalk query mode skip sched root).scanned =
      (pureQueue query mode skip (initQueue skip root)).2 ∧
    (parallelWalk query mode skip sched root).matched =
      sortStrings (pureQueue query mode skip (initQueue skip root)).1 := by
  have h0 : ({ queue := initQueue skip root, acc := ⟨[], 0, 0⟩ } : WalkState).acc.found +
      (pureQueue query mode skip
        ({ queue := initQueue skip root, acc := ⟨[], 0, 0⟩ } : WalkState).queue).1.length <
      maxResults := by simpa using h
  obtain ⟨hs, hf, hm⟩ := runWalk_pure query mode skip sched
    (queueW (initQueue skip root)) { queue := initQueue skip root, acc := ⟨[], 0, 0⟩ } 0
    (by simp) h0
  constructor
  · simpa using hs
  · show sortStrings _ = _
    refine sortStrings_eq_of_perm ?_
    simpa using hm

/-- The sorted matches and the scanned count do not depend on the
schedule as long as the capless total stays under the cap: every
interleaving of the 16 workers produces the same result. -/
theorem parallelWalk_sched_indep (query : String) (mode : SearchMode) (skip : Bool)
    (root : QItem) (sched1 sched2 : Nat → Nat)
    (h : (pureQueue query mode skip (initQueue skip root)).1.length < maxResults) :
    parallelWalk query mode skip sched1 root = parallelWalk query mode skip sched2 root := by
  obtain ⟨hs1, hm1⟩ := parallelWalk_pure query mode skip sched1 root h
  obtain ⟨hs2, hm2⟩ := parallelWalk_pure query mode skip sched2 root h
  have e1 : (parallelWalk query mode skip sched1 root).err =
      (parallelWalk query mode skip sched2 root).err := rfl
  have e2 : (parallelWalk query mode skip sched1 root).matched =
      (parallelWalk query mode skip sched2 root).matched := by rw [hm1, hm2]
  have e3 : (parallelWalk query mode skip sched1 root).scanned =
      (parallelWalk query mode skip sched2 root).scanned := by rw [hs1, hs2]
  cases h1 : parallelWalk query mode skip sched1 root with
  | mk m1 s1 er1 =>
    cases h2 : parallelWalk query mode skip sched2 root with
    | mk m2 s2 er2 =>
      rw [h1, h2] at e1 e2 e3
      simp at e1 e2 e3
      simp [e1, e2, e3]

/-- C7 semantics: the returned error is exactly the failure of the
seeding read of the root, and an unreadable root yields an empty result
and a zero scanned count. -/
theorem parallelWalk_root_error (query : String) (mode : SearchMode) (skip : Bool)
    (sched : Nat → Nat) (root : QItem) :
    ((parallelWalk query mode skip sched root).err = true ↔ root.readable = false) ∧
    (root.readable = false →
      (parallelWalk query mode skip sched root).matched = [] ∧
      (parallelWalk query mode skip sched root).scanned = 0) := by
  constructor
  · show (!root.readable) = true ↔ root.readable = false
    cases root.readable <;> simp
  · intro hr
    have hinit : initQueue skip root = [root] := by
      simp [initQueue, hr]
    have hp : pureQueue query mode skip (initQueue skip root) = ([], 0) := by
      simp [hinit, pureQueue, pureItem, hr]
    obtain ⟨hs, hm⟩ := parallelWalk_pure query mode skip sched root
      (by rw [hp]; simpa using maxResults_pos)
    rw [hp] at hs hm
    exact ⟨by simpa using hm, by simpa using hs⟩

/-! ## Reachable entries

Reach skip dirPath entries segs p e holds when the traversal rooted at
the directory listing (dirPath, entries) can see entry e at relative
segment chain segs and full path p without crossing a pruned directory:
e is a non-pruned entry of the listing itself, or lies behind a chain
of non-pruned readable subdirectories.  This is the set of entries the
match block ever runs on. -/
inductive Reach (skip : Bool) : String → List FSEntry → List String → String → FSEntry → Prop
  | here {dirPath : String} {entries : List FSEntry} {e : FSEntry} :
      e ∈ entries → pruned skip e (lowerS e.name) = false →
      Reach skip dirPath entries [e.name] (joinPath dirPath e.name) e
  | deeper {dirPath : String} {entries : List FSEntry} {n : String}
      {children : List FSEntry} {segs : List String} {p : String} {e : FSEntry} :
      FSEntry.dir n true children ∈ entries →
      pruned skip (FSEntry.dir n true children) (lowerS n) = false →
      Reach skip (joinPath dirPath n) children segs p e →
      Reach skip dirPath entries (n :: segs) p e

/-- Own match of a listed entry is among the capless matches. -/
theorem pure_mem_of_entry (query : String) (mode : SearchMode) (skip : Bool) :
    ∀ (l : List FSEntry) (dirPath : String) (e : FSEntry),
      e ∈ l → pruned skip e (lowerS e.name) = false →
      (rawMatch query (lowerS e.name) (joinPath dirPath e.name) && modeOK mode e) = true →
      joinPath dirPath e.name ∈ (pureChildren query mode skip dirPath l).1 := by
  intro l
  induction l with
  | nil => intro dirPath e he; simp at he
  | cons a rest ih =>
    intro dirPath e he hp hm
    rw [pureChildren_cons]
    try simp only []
    rcases List.mem_cons.mp he with he1 | he2
    · subst he1
      rw [if_neg (by simp [hp])]
      simp at hm
      simp [hm]
    · split
      · exact ih dirPath e he2 hp hm
      · simp
        left
        exact ih dirPath e he2 hp hm

/-- A match inside a listed readable non-pruned subdirectory is among
the capless matches. -/
theorem pure_mem_of_subdir (query : String) (mode : SearchMode) (skip : Bool) :
    ∀ (l : List FSEntry) (dirPath : String) (n : String) (children : List FSEntry) (x : String),
      FSEntry.dir n true children ∈ l →
      pruned skip (FSEntry.dir n true children) (lowerS n) = false →
      x ∈ (pureChildren query mode skip (joinPath dirPath n) children).1 →
      x ∈ (pureChildren query mode skip dirPath l).1 := by
  intro l
  induction l with
  | nil => intro dirPath n children x he; simp at he
  | cons a rest ih =>
    intro dirPath n children x he hp hx
    rw [pureChildren_cons]
    try simp only []
    rcases List.mem_cons.mp he with he1 | he2
    · subst he1
      rw [if_neg (by simp only [FSEntry.name] at hp ⊢; simp [hp])]
      simp only [FSEntry.name]
      simp
      right
      split
      · simp
        right
        exact hx
      · exact hx
    · split
      · exact ih dirPath n children x he2 hp hx
      · simp
        left
        exact ih dirPath n children x he2 hp hx

theorem reach_weaken {skip : Bool} {dirPath : String} {a : FSEntry} {rest : List FSEntry}
    {segs : List String} {x : String} {e : FSEntry}
    (h : Reach skip dirPath rest segs x e) : Reach skip dirPath (a :: rest) segs x e := by
  cases h with
  | here hm hp => exact Reach.here (List.mem_cons_of_mem a hm) hp
  | deeper hm hp hr => exact Reach.deeper (List.mem_cons_of_mem a hm) hp hr

/-- Every capless match comes from a reachable entry that passes the
match test for its own name and full path. -/
theorem pure_mem_reach (query : String) (mode : SearchMode) (skip : Bool) :
    ∀ (W : Nat) (l : List FSEntry) (dirPath : String) (x : String),
      entriesSize l ≤ W → x ∈ (pureChildren query mode skip dirPath l).1 →
      ∃ segs e, Reach skip dirPath l segs x e ∧
        (rawMatch query (lowerS e.name) x && modeOK mode e) = true := by
  intro W
  induction W with
  | zero =>
    intro l dirPath x hW hx
    cases l with
    | nil => simp [pureChildren, pureChildrenF] at hx
    | cons a rest =>
      exfalso
      have := entrySize_pos a
      simp [entriesSize] at hW
      omega
  | succ W ih =>
    intro l dirPath x hW hx
    cases l with
    | nil => simp [pureChildren, pureChildrenF] at hx
    | cons a rest =>
      have hWr : entriesSize rest ≤ W := by
        have := entrySize_pos a
        simp [entriesSize] at hW
        omega
      rw [pureChildren_cons] at hx
      try simp only [] at hx
      split at hx
      · rename_i hp
        obtain ⟨segs, e, hr, hm⟩ := ih rest dirPath x hWr hx
        exact ⟨segs, e, reach_weaken hr, hm⟩
      · rename_i hp
        try simp only [] at hx
        rcases List.mem_append.mp hx with hx1 | hx2
        · obtain ⟨segs, e, hr, hm⟩ := ih rest dirPath x hWr hx1
          exact ⟨segs, e, reach_weaken hr, hm⟩
        · -- from the entry itself or its subtree
          have hown : x = joinPath dirPath a.name ∧
              (rawMatch query (lowerS a.name) (joinPath dirPath a.name) && modeOK mode a) = true ∨
              (∃ n children, a = FSEntry.dir n true children ∧
                x ∈ (pureChildren query mode skip (joinPath dirPath a.name) children).1) := by
            split at hx2
            · rename_i hcnd
              rcases List.mem_cons.mp hx2 with hx3 | hx4
              · exact Or.inl ⟨hx3, by simp [hcnd]⟩
              · cases a with
                | file n => simp at hx4
                | dir n readable children =>
                  cases readable with
                  | false => simp at hx4
                  | true => exact Or.inr ⟨n, children, rfl, by simpa using hx4⟩
            · cases a with
              | file n => simp at hx2
              | dir n readable children =>
                cases readable with
                | false => simp at hx2
                | true => exact Or.inr ⟨n, children, rfl, by simpa using hx2⟩
          rcases hown with ⟨hxe, hm⟩ | ⟨n, children, hae, hxs⟩
          · subst hxe
            exact ⟨[a.name], a, Reach.here (List.mem_cons_self a rest) (by simpa using hp), hm⟩
          · subst hae
            have hWc : entriesSize children ≤ W := by
              simp [entriesSize, entrySize] at hW
              omega
            obtain ⟨segs, e, hr, hm⟩ := ih children _ x hWc hxs
            refine ⟨n :: segs, e, ?_, hm⟩
            exact Reach.deeper (List.mem_cons_self _ rest) (by simpa using hp) hr

/-- Conversely, every reachable entry that passes the match test
contributes its path to the capless matches. -/
theorem reach_pure (query : String) (mode : SearchMode) (skip : Bool)
    {l : List FSEntry} {dirPath : String} {segs : List String} {x : String} {e : FSEntry}
    (h : Reach skip dirPath l segs x e)
    (hm : (rawMatch query (lowerS e.name) x && modeOK mode e) = true) :
    x ∈ (pureChildren query mode skip dirPath l).1 := by
  induction h with
  | here hme hp => exact pure_mem_of_entry query mode skip _ _ _ hme hp hm
  | deeper hme hp hr ihr => exact pure_mem_of_subdir query mode skip _ _ _ _ _ hme hp (ihr hm)

theorem pure_mem_left (query : String) (mode : SearchMode) (skip : Bool)
    {dirPath : String} {e : FSEntry} {rest : List FSEntry} {x : String}
    (h : x ∈ (pureChildren query mode skip dirPath rest).1) :
    x ∈ (pureChildren query mode skip dirPath (e :: rest)).1 := by
  rw [pureChildren_cons]
  try simp only []
  split
  · exact h
  · simp
    left
    exact h

theorem pure_mem_own (query : String) (mode : SearchMode) (skip : Bool)
    {dirPath : String} {e : FSEntry} {rest : List FSEntry} {x : String}
    (hp : pruned skip e (lowerS e.name) = false)
    (h : x ∈ (if rawMatch query (lowerS e.name) (joinPath dirPath e.name) && modeOK mode e then
        joinPath dirPath e.name ::
          (match e with
          | FSEntry.file _ => (([] : List String), 0)
          | FSEntry.dir _ readable children =>
            if readable then pureChildren query mode skip (joinPath dirPath e.name) children
            else ([], 0)).1
      else
        (match e with
        | FSEntry.file _ => (([] : List String), 0)
        | FSEntry.dir _ readable children =>
          if readable then pureChildren query mode skip (joinPath dirPath e.name) children
          else ([], 0)).1)) :
    x ∈ (pureChildren query mode skip dirPath (e :: rest)).1 := by
  rw [pureChildren_cons]
  try simp only []
  rw [if_neg (by simp [hp])]
  simp
  right
  simpa using h

theorem walkInlineF_sound (query : String) (mode : SearchMode) (skip : Bool) :
    ∀ (fuel : Nat) (l : List FSEntry) (dirPath : String) (st : SearchState) (x : String),
      x ∈ (walkInlineF query mode skip fuel dirPath l st).matched →
      x ∈ st.matched ∨ x ∈ (pureChildren query mode skip dirPath l).1 := by
  intro fuel
  induction fuel with
  | zero => intro l dirPath st x hx; exact Or.inl hx
  | succ fuel ih =>
    intro l dirPath st x hx
    cases l with
    | nil => exact Or.inl hx
    | cons e rest =>
      simp only [walkInlineF] at hx
      split at hx
      · exact Or.inl hx
      · try simp only [] at hx
        split at hx
        · rename_i hp
          rcases ih rest dirPath _ x hx with h1 | h2
          · exact Or.inl (by simpa [bumpScan] using h1)
          · exact Or.inr (pure_mem_left query mode skip h2)
        · rename_i hp
          rcases ih rest dirPath _ x hx with h1 | h2
          · -- x came from the own-entry handling
            rw [addMatch_eq] at h1
            try simp only [] at h1
            rcases List.mem_append.mp h1 with hown | hrest2
            · -- matched by the entry itself
              refine Or.inr (pure_mem_own query mode skip (by simpa using hp) ?_)
              split at hown
              · rename_i hcnd
                simp at hown
                rw [if_pos hcnd]
                simp [hown]
              · simp at hown
            · -- from the subtree walk (or already present)
              cases e with
              | file n => exact Or.inl (by simpa [bumpScan] using hrest2)
              | dir n readable children =>
                cases readable with
                | false => exact Or.inl (by simpa [bumpScan] using hrest2)
                | true =>
                  simp only [reduceIte] at hrest2
                  rcases ih children _ _ x hrest2 with h3 | h4
                  · exact Or.inl (by simpa [bumpScan] using h3)
                  · refine Or.inr (pure_mem_own query mode skip (by simpa using hp) ?_)
                    split
                    · simp
                      right
                      simpa using h4
                    · simpa using h4
          · exact Or.inr (pure_mem_left query mode skip h2)

/-- Soundness of the worker's entry loop, with no hypothesis about the
cap: every match it adds is a capless match of its directory, and every
item it enqueues is a non-pruned subdirectory of its directory. -/
theorem workerLoop_sound (query : String) (mode : SearchMode) (skip : Bool) :
    ∀ (l : List FSEntry) (dirPath : String) (st : WalkState),
      (∀ x ∈ (workerLoop query mode skip dirPath l st).acc.matched,
        x ∈ st.acc.matched ∨ x ∈ (pureChildren query mode skip dirPath l).1) ∧
      (∀ it ∈ (workerLoop query mode skip dirPath l st).queue,
        it ∈ st.queue ∨
        ∃ n, FSEntry.dir n it.readable it.entries ∈ l ∧
          pruned skip (FSEntry.dir n it.readable it.entries) (lowerS n) = false ∧
          it.path = joinPath dirPath n) := by
  intro l
  induction l with
  | nil => intro dirPath st; exact ⟨fun x hx => Or.inl hx, fun it hit => Or.inl hit⟩
  | cons e rest ih =>
    intro dirPath st
    simp only [workerLoop]
    split
    · exact ⟨fun x hx => Or.inl hx, fun it hit => Or.inl hit⟩
    · try simp only []
      split
      · rename_i hp
        obtain ⟨ihm, ihq⟩ := ih dirPath { st with acc := bumpScan st.acc }
        constructor
        · intro x hx
          rcases ihm x hx with h1 | h2
          · exact Or.inl (by simpa [bumpScan] using h1)
          · exact Or.inr (pure_mem_left query mode skip h2)
        · intro it hit
          rcases ihq it hit with h1 | ⟨n, hn, hpn, hpath⟩
          · exact Or.inl (by simpa using h1)
          · exact Or.inr ⟨n, List.mem_cons_of_mem e hn, hpn, hpath⟩
      · rename_i hp
        obtain ⟨ihm, ihq⟩ := ih dirPath _
        constructor
        · intro x hx
          rcases ihm x hx with h1 | h2
          · -- through the per-entry handling of e
            rw [addMatch_eq] at h1
            try simp only [] at h1
            rcases List.mem_append.mp h1 with hown | hbase
            · refine Or.inr (pure_mem_own query mode skip (by simpa using hp) ?_)
              split at hown
              · rename_i hcnd
                simp at hown
                rw [if_pos hcnd]
                simp [hown]
              · simp at hown
            · -- the enqueue step only touches matched through an inline walk
              simp only [enqChild] at hbase
              cases e with
              | file n => exact Or.inl (by simpa [bumpScan] using hbase)
              | dir n readable children =>
                try simp only [] at hbase
                split at hbase
                · exact Or.inl (by simpa [bumpScan] using hbase)
                · cases readable with
                  | false => exact Or.inl (by simpa [bumpScan] using hbase)
                  | true =>
                    simp only [reduceIte] at hbase
                    try simp only [] at hbase
                    rcases walkInlineF_sound query mode skip _ children _ _ x hbase with h3 | h4
                    · exact Or.inl (by simpa [bumpScan] using h3)
                    · refine Or.inr (pure_mem_own query mode skip (by simpa using hp) ?_)
                      split
                      · simp
                        right
                        simpa using h4
                      · simpa using h4
          · exact Or.inr (pure_mem_left query mode skip h2)
        · intro it hit
          rcases ihq it hit with h1 | ⟨n, hn, hpn, hpath⟩
          · -- already in the queue before processing e, or enqueued by e
            simp only [enqChild] at h1
            cases e with
            | file n => exact Or.inl (by simpa using h1)
            | dir n readable children =>
              try simp only [] at h1
              split at h1
              · rcases List.mem_cons.mp (by simpa using h1) with h2 | h3
                · refine Or.inr ⟨n, ?_, by simpa using hp, by rw [h2]; simp [FSEntry.name]⟩
                  rw [h2]
                  exact List.mem_cons_self _ _
                · exact Or.inl h3
              · exact Or.inl (by simpa using h1)
          · exact Or.inr ⟨n, List.mem_cons_of_mem e hn, hpn, hpath⟩

/-- A path produced by the search on this root: some reachable entry
whose name or full path contains the query, of the right kind for the
mode. -/
def MatchedFrom (query : String) (mode : SearchMode) (skip : Bool)
    (root : QItem) (x : String) : Prop :=
  ∃ segs e, Reach skip root.path root.entries segs x e ∧
    (rawMatch query (lowerS e.name) x && modeOK mode e) = true

/-- A queued directory all of whose capless matches are sound for this
root. -/
def ItemFrom (query : String) (mode : SearchMode) (skip : Bool)
    (root : QItem) (it : QItem) : Prop :=
  it.readable = true →
    ∀ x ∈ (pureChildren query mode skip it.path it.entries).1,
      MatchedFrom query mode skip root x

theorem stepDir_sound (query : String) (mode : SearchMode) (skip : Bool)
    (root : QItem) (it : QItem) (st : WalkState)
    (hit : ItemFrom query mode skip root it)
    (hmat : ∀ x ∈ st.acc.matched, MatchedFrom query mode skip root x)
    (hq : ∀ it2 ∈ st.queue, ItemFrom query mode skip root it2) :
    (∀ x ∈ (stepDir query mode skip it st).acc.matched, MatchedFrom query mode skip root x) ∧
    (∀ it2 ∈ (stepDir query mode skip it st).queue, ItemFrom query mode skip root it2) := by
  rw [stepDir]
  split
  · exact ⟨hmat, hq⟩
  · split
    · exact ⟨hmat, hq⟩
    · rename_i hcap hrd
      have hr : it.readable = true := by
        cases h : it.readable
        · rw [h] at hrd; simp at hrd
        · rfl
      obtain ⟨hm2, hq2⟩ := workerLoop_sound query mode skip it.entries it.path st
      constructor
      · intro x hx
        rcases hm2 x hx with h1 | h2
        · exact hmat x h1
        · exact hit hr x h2
      · intro it2 hit2
        rcases hq2 it2 hit2 with h1 | ⟨n, hn, hpn, hpath⟩
        · exact hq it2 h1
        · intro hr2 x hx
          refine hit hr x ?_
          refine pure_mem_of_subdir query mode skip it.entries it.path n it2.entries x ?_ ?_ ?_
          · rw [← hr2]
            exact hn
          · simpa [FSEntry.name] using hpn
          · rw [← hpath]
            exact hx

/-- Along the whole drain, matches only ever come from reachable
matching entries. -/
theorem runWalk_sound (query : String) (mode : SearchMode) (skip : Bool)
    (sched : Nat → Nat) (root : QItem) :
    ∀ (W : Nat) (st : WalkState) (n : Nat), queueW st.queue ≤ W →
      (∀ x ∈ st.acc.matched, MatchedFrom query mode skip root x) →
      (∀ it ∈ st.queue, ItemFrom query mode skip root it) →
      ∀ x ∈ (runWalk query mode skip sched n st).acc.matched,
        MatchedFrom query mode skip root x := by
  intro W
  induction W with
  | zero =>
    intro st n hW hmat hq x hx
    cases hqq : st.queue with
    | nil =>
      rw [runWalk_empty query mode skip sched n st hqq] at hx
      exact hmat x hx
    | cons it0 rest =>
      exfalso
      rw [hqq] at hW
      simp [queueW, itemW] at hW
  | succ W ih =>
    intro st n hW hmat hq x hx
    cases hqq : st.queue with
    | nil =>
      rw [runWalk_empty query mode skip sched n st hqq] at hx
      exact hmat x hx
    | cons it0 rest =>
      rw [runWalk_step query mode skip sched n st it0 rest hqq] at hx
      have hi : sched n % st.queue.length < st.queue.length :=
        Nat.mod_lt _ (by rw [hqq]; simp)
      have hgd : st.queue.getD (sched n % st.queue.length) it0 =
          st.queue.get ⟨sched n % st.queue.length, hi⟩ :=
        List.getD_eq_get st.queue it0 hi
      rw [hgd] at hx
      have hd := stepDecrease query mode skip st it0 (sched n % st.queue.length) hi
      rw [hgd] at hd
      have hermem : ∀ it2 ∈ st.queue.eraseIdx (sched n % st.queue.length), it2 ∈ st.queue :=
        fun it2 h2 => (List.eraseIdx_sublist st.queue (sched n % st.queue.length)).mem h2
      obtain ⟨hm3, hq3⟩ := stepDir_sound query mode skip root
        (st.queue.get ⟨sched n % st.queue.length, hi⟩)
        { st with queue := st.queue.eraseIdx (sched n % st.queue.length) }
        (hq _ (st.queue.get_mem _ _))
        (by simpa using hmat)
        (by intro it2 h2; exact hq it2 (hermem it2 (by simpa using h2)))
      exact ih _ (n + 1) (by omega) hm3 hq3 x hx

theorem seedList_mem (skip : Bool) (rootPath : String) :
    ∀ (l : List FSEntry) (it : QItem), it ∈ seedList skip rootPath l →
      ∃ n, FSEntry.dir n it.readable it.entries ∈ l ∧
        (skip && (skipDirs (lowerS n) || startsDot (lowerS n))) = false ∧
        it.path = joinPath rootPath n := by
  intro l
  induction l with
  | nil => intro it hit; simp [seedList] at hit
  | cons e rest ih =>
    intro it hit
    cases e with
    | file m =>
      simp only [seedList] at hit
      obtain ⟨n, hn, hc, hp⟩ := ih it hit
      exact ⟨n, List.mem_cons_of_mem _ hn, hc, hp⟩
    | dir m readable children =>
      simp only [seedList] at hit
      split at hit
      · obtain ⟨n, hn, hc, hp⟩ := ih it hit
        exact ⟨n, List.mem_cons_of_mem _ hn, hc, hp⟩
      · rename_i hc
        rcases List.mem_cons.mp hit with h1 | h2
        · refine ⟨m, ?_, by simpa using hc, by rw [h1]⟩
          rw [h1]
          exact List.mem_cons_self _ _
        · obtain ⟨n, hn, hc2, hp⟩ := ih it h2
          exact ⟨n, List.mem_cons_of_mem _ hn, hc2, hp⟩

/-- Every path in the returned matches list comes from a reachable
entry that passes the match test and fits the mode. -/
theorem parallelWalk_sound (query : String) (mode : SearchMode) (skip : Bool)
    (sched : Nat → Nat) (root : QItem) :
    ∀ x ∈ (parallelWalk query mode skip sched root).matched,
      MatchedFrom query mode skip root x := by
  intro x hx
  have hx2 : x ∈ (runWalk query mode skip sched 0
      { queue := initQueue skip root, acc := ⟨[], 0, 0⟩ }).acc.matched := by
    rw [show (parallelWalk query mode skip sched root).matched =
      sortStrings (runWalk query mode skip sched 0
        { queue := initQueue skip root, acc := ⟨[], 0, 0⟩ }).acc.matched from rfl] at hx
    exact mem_sortStrings.mp hx
  refine runWalk_sound query mode skip sched root
    (queueW (initQueue skip root)) _ 0 (by simp) (by simp) ?_ x hx2
  intro it hit
  try simp only [] at hit
  rw [initQueue] at hit
  rcases List.mem_cons.mp hit with h1 | h2
  · -- the root item itself
    intro hr y hy
    rw [h1] at hy hr
    obtain ⟨segs, e, hre, hm⟩ := pure_mem_reach query mode skip
      (entriesSize root.entries) root.entries root.path y le_rfl hy
    exact ⟨segs, e, hre, hm⟩
  · -- a seeded first-level subdirectory
    split at h2
    · rename_i hrr
      obtain ⟨n, hn, hc, hp⟩ := seedList_mem skip root.path root.entries it h2
      intro hr y hy
      have hy2 : y ∈ (pureChildren query mode skip root.path root.entries).1 := by
        refine pure_mem_of_subdir query mode skip root.entries root.path n it.entries y ?_ ?_ ?_
        · rw [← hr]
          exact hn
        · simpa [pruned, FSEntry.isDir, FSEntry.name] using hc
        · rw [← hp]
          exact hy
      obtain ⟨segs, e, hre, hm⟩ := pure_mem_reach query mode skip
        (entriesSize root.entries) root.entries root.path y le_rfl hy2
      exact ⟨segs, e, hre, hm⟩
    · simp at h2

/-! ## The shape of reachable paths -/

/-- filepath.Join chained over a list of path segments. -/
def joinAll (base : String) : List String → String
  | [] => base
  | s :: rest => joinAll (joinPath base s) rest

theorem joinAll_cons (base s : String) (rest : List String) :
    joinAll base (s :: rest) = joinAll (joinPath base s) rest := rfl

theorem leadsList_nil (l : List Char) : leadsList [] l = true := rfl

/-- strings.Contains with an empty needle is true on any haystack. -/
theorem containsList_empty (l : List Char) : containsList l [] = true := by
  cases l <;> simp [containsList, leadsList]

/-- strings.Contains(s, "") is true for every s. -/
theorem goContains_empty (s : String) : goContains s "" = true :=
  containsList_empty s.data

/-- With the empty query, the match test of the match block is true on
every name and path. -/
theorem rawMatch_empty (nameLower fullPath : String) :
    rawMatch "" nameLower fullPath = true := by
  rw [rawMatch, goContains_empty]
  simp

/-- A substring of the tail of a list is a substring of the whole. -/
theorem containsList_append_left (h t n : List Char)
    (hc : containsList t n = true) : containsList (h ++ t) n = true := by
  induction h with
  | nil => simpa using hc
  | cons c r ih =>
    have hu : containsList ((c :: r) ++ t) n =
        (leadsList n (c :: (r ++ t)) || containsList (r ++ t) n) := rfl
    rw [hu, ih]
    simp

/-- A query contained in the lowercased name is contained in the
lowercased joined path ending in that name. -/
theorem goContains_join (d name q : String)
    (h : goContains (lowerS name) q = true) :
    goContains (lowerS (joinPath d name)) q = true := by
  show containsList (lowerS (joinPath d name)).data q.data = true
  have hd : (lowerS (joinPath d name)).data =
      (lowerS (d ++ "/")).data ++ (lowerS name).data := by
    show ((d ++ "/" ++ name).data.map Char.toLower) =
      ((d ++ "/").data.map Char.toLower) ++ (name.data.map Char.toLower)
    rw [show (d ++ "/" ++ name).data = (d ++ "/").data ++ name.data from rfl,
      List.map_append]
  rw [hd]
  exact containsList_append_left _ _ _ h

/-- The full path of a reachable entry ends in the entry's own name. -/
theorem reach_last {skip : Bool} {dirPath : String} {l : List FSEntry}
    {segs : List String} {x : String} {e : FSEntry}
    (h : Reach skip dirPath l segs x e) : ∃ d, x = joinPath d e.name := by
  induction h with
  | here hm hp => exact ⟨_, rfl⟩
  | deeper hm hp hr ih => exact ih

/-- getLast? passes over a cons to a nonempty tail. -/
theorem getLast_cons_ne {A : Type} (a : A) (l : List A) (h : l ≠ []) :
    (a :: l).getLast? = l.getLast? := by
  cases l with
  | nil => exact absurd rfl h
  | cons b r => exact List.getLast?_cons_cons

/-- The full path of a reachable entry is the join of its segment
chain below the base directory, and the last segment is its name. -/
theorem reach_shape {skip : Bool} {dirPath : String} {l : List FSEntry}
    {segs : List String} {x : String} {e : FSEntry}
    (h : Reach skip dirPath l segs x e) :
    x = joinAll dirPath segs ∧ segs.getLast? = some e.name := by
  induction h with
  | here hm hp => exact ⟨rfl, rfl⟩
  | deeper hm hp hr ih =>
    rename_i dirP ents n children sg p e2
    obtain ⟨ih1, ih2⟩ := ih
    have hne : sg ≠ [] := by
      intro hc
      rw [hc] at ih2
      simp at ih2
    exact ⟨by rw [joinAll_cons]; exact ih1, by rw [getLast_cons_ne n sg hne]; exact ih2⟩

/-- With system-dir skipping on, every segment of a reachable path other
than the last passes both skip tests, and so does the last segment when
the reached entry is a directory. -/
theorem reach_good {dirPath : String} {l : List FSEntry}
    {segs : List String} {x : String} {e : FSEntry}
    (h : Reach true dirPath l segs x e) :
    (∀ s ∈ segs.dropLast, skipDirs (lowerS s) = false ∧ startsDot (lowerS s) = false) ∧
    (e.isDir = true → skipDirs (lowerS e.name) = false ∧ startsDot (lowerS e.name) = false) := by
  induction h with
  | here hm hp =>
    constructor
    · intro s hs
      simp at hs
    · intro hd
      rw [pruned, hd] at hp
      simp at hp
      exact hp
  | deeper hm hp hr ih =>
    rename_i dirP ents n children sg p e2
    have hn : skipDirs (lowerS n) = false ∧ startsDot (lowerS n) = false := by
      rw [pruned] at hp
      simp [FSEntry.isDir] at hp
      exact hp
    obtain ⟨ih1, ih2⟩ := ih
    constructor
    · intro s hs
      have hne : sg ≠ [] := by
        intro hc
        have := (reach_shape hr).2
        rw [hc] at this
        simp at this
      cases hsg : sg with
      | nil => exact absurd hsg hne
      | cons a r =>
        rw [hsg] at hs
        rw [show (n :: a :: r).dropLast = n :: (a :: r).dropLast from rfl] at hs
        rcases List.mem_cons.mp hs with h1 | h2
        · rw [h1]
          exact hn
        · rw [hsg] at ih1
          exact ih1 s h2
    · exact ih2

/-! ## The cap under a never-full queue

The inline fallback of the queue hand-off is the only place where the
found counter can pass maxResults (the match block after the inline
walk of a subtree runs without rechecking the cap); as long as the
queue never fills, every new match is preceded by a cap check, and
found stays within maxResults.  The queue can never fill when the
weight of the seeded queue is within the channel capacity, because the
total queue weight only ever shrinks. -/

theorem length_le_queueW : ∀ (l : List QItem), l.length ≤ queueW l := by
  intro l
  induction l with
  | nil => simp [queueW]
  | cons it t ih =>
    simp only [queueW, itemW, List.length_cons]
    omega

/-- The match block grows found and matched in lock step. -/
theorem addMatch_fm (query : String) (mode : SearchMode) (nameLower fullPath : String)
    (e : FSEntry) (st : SearchState) :
    (addMatch query mode nameLower fullPath e st).found + st.matched.length =
      (addMatch query mode nameLower fullPath e st).matched.length + st.found := by
  rw [addMatch]
  split <;> (try simp only []) <;> (try simp) <;> omega

/-- walkInline grows found and matched in lock step. -/
theorem walkInlineF_fm (query : String) (mode : SearchMode) (skip : Bool) :
    ∀ (fuel : Nat) (l : List FSEntry) (dirPath : String) (st : SearchState),
      (walkInlineF query mode skip fuel dirPath l st).found + st.matched.length =
        (walkInlineF query mode skip fuel dirPath l st).matched.length + st.found := by
  intro fuel
  induction fuel with
  | zero => intro l dirPath st; simp only [walkInlineF]; omega
  | succ fuel ih =>
    intro l dirPath st
    cases l with
    | nil => simp only [walkInlineF]; omega
    | cons e rest =>
      simp only [walkInlineF]
      split
      · omega
      · split
        · have := ih rest dirPath (bumpScan st)
          simp only [bumpScan] at this ⊢
          omega
        · cases e with
          | file n =>
            have h1 := ih rest dirPath
              (addMatch query mode (lowerS (FSEntry.file n).name)
                (joinPath dirPath (FSEntry.file n).name) (FSEntry.file n) (bumpScan st))
            have hA := addMatch_fm query mode (lowerS (FSEntry.file n).name)
              (joinPath dirPath (FSEntry.file n).name) (FSEntry.file n) (bumpScan st)
            simp only [bumpScan] at h1 hA ⊢
            omega
          | dir n readable children =>
            cases readable with
            | false =>
              simp only [Bool.false_eq_true, ite_false]
              have h1 := ih rest dirPath
                (addMatch query mode (lowerS (FSEntry.dir n false children).name)
                  (joinPath dirPath (FSEntry.dir n false children).name)
                  (FSEntry.dir n false children) (bumpScan st))
              have hA := addMatch_fm query mode (lowerS (FSEntry.dir n false children).name)
                (joinPath dirPath (FSEntry.dir n false children).name)
                (FSEntry.dir n false children) (bumpScan st)
              simp only [bumpScan] at h1 hA ⊢
              omega
            | true =>
              simp only [ite_true]
              have h0 := ih children
                (joinPath dirPath (FSEntry.dir n true children).name) (bumpScan st)
              have h1 := ih rest dirPath
                (addMatch query mode (lowerS (FSEntry.dir n true children).name)
                  (joinPath dirPath (FSEntry.dir n true children).name)
                  (FSEntry.dir n true children)
                  (walkInlineF query mode skip fuel
                    (joinPath dirPath (FSEntry.dir n true children).name) children
                    (bumpScan st)))
              have hA := addMatch_fm query mode (lowerS (FSEntry.dir n true children).name)
                (joinPath dirPath (FSEntry.dir n true children).name)
                (FSEntry.dir n true children)
                (walkInlineF query mode skip fuel
                  (joinPath dirPath (FSEntry.dir n true children).name) children
                  (bumpScan st))
              simp only [bumpScan] at h0 h1 hA ⊢
              omega

/-- The worker's entry loop grows found and matched in lock step. -/
theorem workerLoop_fm (query : String) (mode : SearchMode) (skip : Bool) :
    ∀ (l : List FSEntry) (dirPath : String) (st : WalkState),
      (workerLoop query mode skip dirPath l st).acc.found + st.acc.matched.length =
        (workerLoop query mode skip dirPath l st).acc.matched.length + st.acc.found := by
  intro l
  induction l with
  | nil => intro dirPath st; simp only [workerLoop]; omega
  | cons e rest ih =>
    intro dirPath st
    simp only [workerLoop]
    split
    · omega
    · split
      · have := ih dirPath { st with acc := bumpScan st.acc }
        simp only [bumpScan] at this ⊢
        omega
      · set st2 := enqChild query mode skip (joinPath dirPath e.name) e
          { st with acc := bumpScan st.acc } with hst2
        have h2 : st2.acc.found + st.acc.matched.length =
            st2.acc.matched.length + st.acc.found := by
          rw [hst2]
          cases e with
          | file n =>
            simp only [enqChild, bumpScan]
            try simp only []
            omega
          | dir n readable children =>
            simp only [enqChild]
            split
            · simp only [bumpScan]
              try simp only []
              omega
            · cases readable with
              | false =>
                simp only [Bool.false_eq_true, ite_false, bumpScan]
                try simp only []
                omega
              | true =>
                simp only [ite_true]
                have := walkInlineF_fm query mode skip
                  (entriesSize children + 1) children
                  (joinPath dirPath (FSEntry.dir n true children).name)
                  (bumpScan st.acc)
                rw [show walkInlineF query mode skip (entriesSize children + 1)
                  (joinPath dirPath (FSEntry.dir n true children).name) children (bumpScan st.acc) =
                  walkInline query mode skip (joinPath dirPath (FSEntry.dir n true children).name)
                    children (bumpScan st.acc) from rfl] at this
                simp only [bumpScan] at this ⊢
                try simp only [] at this ⊢
                omega
        have h1 := ih dirPath
          { st2 with acc := addMatch query mode (lowerS e.name) (joinPath dirPath e.name) e st2.acc }
        have hA := addMatch_fm query mode (lowerS e.name) (joinPath dirPath e.name) e st2.acc
        simp only [] at h1 ⊢
        omega

/-- The match block adds at most one to found. -/
theorem addMatch_found_le (query : String) (mode : SearchMode) (nameLower fullPath : String)
    (e : FSEntry) (st : SearchState) :
    (addMatch query mode nameLower fullPath e st).found ≤ st.found + 1 := by
  rw [addMatch]
  split <;> simp

/-- While the queue has room for every subdirectory the loop may hand
off, found never passes maxResults: each append is preceded by a cap
check and the inline fallback never runs. -/
theorem workerLoop_cap (query : String) (mode : SearchMode) (skip : Bool) :
    ∀ (l : List FSEntry) (dirPath : String) (st : WalkState),
      queueW st.queue + entriesSize l ≤ queueCap →
      st.acc.found ≤ maxResults →
      (workerLoop query mode skip dirPath l st).acc.found ≤ maxResults := by
  intro l
  induction l with
  | nil => intro dirPath st hq hf; simpa [workerLoop] using hf
  | cons e rest ih =>
    intro dirPath st hq hf
    have hes : 1 ≤ entrySize e := entrySize_pos e
    have hrest : queueW st.queue + entriesSize rest ≤ queueCap := by
      simp only [entriesSize] at hq
      omega
    simp only [workerLoop]
    split
    · exact hf
    · rename_i hlt
      split
      · exact ih dirPath { st with acc := bumpScan st.acc } (by simpa [bumpScan] using hrest)
          (by simpa [bumpScan] using hf)
      · have hflt : st.acc.found < maxResults := by omega
        cases e with
        | file n =>
          refine ih dirPath _ ?_ ?_
          · simp only [enqChild]
            simpa using hrest
          · simp only [enqChild]
            refine le_trans (addMatch_found_le query mode _ _ _ _) ?_
            simp [bumpScan]
            omega
        | dir n readable children =>
          have hroom : st.queue.length < queueCap := by
            have h1 := length_le_queueW st.queue
            simp only [entriesSize, entrySize] at hq
            omega
          have henq : enqChild query mode skip
              (joinPath dirPath (FSEntry.dir n readable children).name)
              (FSEntry.dir n readable children) { st with acc := bumpScan st.acc } =
              { queue := (⟨joinPath dirPath (FSEntry.dir n readable children).name,
                  readable, children⟩ : QItem) :: st.queue, acc := bumpScan st.acc } := by
            simp only [enqChild]
            rw [if_pos (by simpa using hroom)]
          rw [henq]
          refine ih dirPath _ ?_ ?_
          · simp only [queueW, itemW]
            simp only [entriesSize, entrySize] at hq
            try simp
            omega
          · simp only []
            refine le_trans (addMatch_found_le query mode _ _ _ _) ?_
            simp [bumpScan]
            omega

/-- One dequeue step keeps found within the cap when the queue still
has room for the dequeued directory's subdirectories. -/
theorem stepDir_cap (query : String) (mode : SearchMode) (skip : Bool)
    (it : QItem) (st : WalkState)
    (hq : queueW st.queue + entriesSize it.entries ≤ queueCap)
    (hf : st.acc.found ≤ maxResults) :
    (stepDir query mode skip it st).acc.found ≤ maxResults := by
  rw [stepDir]
  split
  · exact hf
  · split
    · exact hf
    · exact workerLoop_cap query mode skip it.entries it.path st hq hf

/-- Along the whole drain of a queue whose weight is within the channel
capacity, found stays within maxResults. -/
theorem runWalk_cap (query : String) (mode : SearchMode) (skip : Bool)
    (sched : Nat → Nat) :
    ∀ (W : Nat) (st : WalkState) (n : Nat), queueW st.queue ≤ W →
      queueW st.queue ≤ queueCap →
      st.acc.found ≤ maxResults →
      (runWalk query mode skip sched n st).acc.found ≤ maxResults := by
  intro W
  induction W with
  | zero =>
    intro st n hW hc hf
    cases hq : st.queue with
    | nil => rw [runWalk_empty query mode skip sched n st hq]; exact hf
    | cons it0 rest =>
      exfalso
      rw [hq] at hW
      simp [queueW, itemW] at hW
  | succ W ih =>
    intro st n hW hc hf
    cases hq : st.queue with
    | nil => rw [runWalk_empty query mode skip sched n st hq]; exact hf
    | cons it0 rest =>
      rw [runWalk_step query mode skip sched n st it0 rest hq]
      have hi : sched n % st.queue.length < st.queue.length :=
        Nat.mod_lt _ (by rw [hq]; simp)
      have hgd : st.queue.getD (sched n % st.queue.length) it0 =
          st.queue.get ⟨sched n % st.queue.length, hi⟩ :=
        List.getD_eq_get st.queue it0 hi
      rw [hgd]
      have he := queueW_eraseIdx st.queue (sched n % st.queue.length) hi
      simp only [itemW] at he
      have hsq := stepDir_queueW query mode skip
        (st.queue.get ⟨sched n % st.queue.length, hi⟩)
        { st with queue := st.queue.eraseIdx (sched n % st.queue.length) }
      refine ih _ (n + 1) ?_ ?_ ?_
      · refine le_trans hsq ?_
        try simp only []
        omega
      · refine le_trans hsq ?_
        try simp only []
        omega
      · refine stepDir_cap query mode skip _ _ ?_ hf
        try simp only []
        omega

/-- One dequeue step grows found and matched in lock step. -/
theorem stepDir_fm (query : String) (mode : SearchMode) (skip : Bool)
    (it : QItem) (st : WalkState) :
    (stepDir query mode skip it st).acc.found + st.acc.matched.length =
      (stepDir query mode skip it st).acc.matched.length + st.acc.found := by
  rw [stepDir]
  split
  · omega
  · split
    · omega
    · exact workerLoop_fm query mode skip it.entries it.path st

/-- Along the whole drain, found and matched grow in lock step. -/
theorem runWalk_fm (query : String) (mode : SearchMode) (skip : Bool)
    (sched : Nat → Nat) :
    ∀ (W : Nat) (st : WalkState) (n : Nat), queueW st.queue ≤ W →
      (runWalk query mode skip sched n st).acc.found + st.acc.matched.length =
        (runWalk query mode skip sched n st).acc.matched.length + st.acc.found := by
  intro W
  induction W with
  | zero =>
    intro st n hW
    cases hq : st.queue with
    | nil => rw [runWalk_empty query mode skip sched n st hq]; omega
    | cons it0 rest =>
      exfalso
      rw [hq] at hW
      simp [queueW, itemW] at hW
  | succ W ih =>
    intro st n hW
    cases hq : st.queue with
    | nil => rw [runWalk_empty query mode skip sched n st hq]; omega
    | cons it0 rest =>
      rw [runWalk_step query mode skip sched n st it0 rest hq]
      have hi : sched n % st.queue.length < st.queue.length :=
        Nat.mod_lt _ (by rw [hq]; simp)
      have hgd : st.queue.getD (sched n % st.queue.length) it0 =
          st.queue.get ⟨sched n % st.queue.length, hi⟩ :=
        List.getD_eq_get st.queue it0 hi
      rw [hgd]
      have hd := stepDecrease query mode skip st it0 (sched n % st.queue.length) hi
      rw [hgd] at hd
      have h1 := ih (stepDir query mode skip
          (st.queue.get ⟨sched n % st.queue.length, hi⟩)
          { st with queue := st.queue.eraseIdx (sched n % st.queue.length) }) (n + 1)
        (by omega)
      have h2 := stepDir_fm query mode skip
        (st.queue.get ⟨sched n % st.queue.length, hi⟩)
        { st with queue := st.queue.eraseIdx (sched n % st.queue.length) }
      simp only [] at h1 h2 ⊢
      omega

/-- The number of returned matches never exceeds maxResults when the
weight of the seeded queue is within the channel capacity (so the
inline fallback never runs). -/
theorem parallelWalk_cap (query : String) (mode : SearchMode) (skip : Bool)
    (sched : Nat → Nat) (root : QItem)
    (h : queueW (initQueue skip root) ≤ queueCap) :
    (parallelWalk query mode skip sched root).matched.length ≤ maxResults := by
  have hcap := runWalk_cap query mode skip sched (queueW (initQueue skip root))
    { queue := initQueue skip root, acc := ⟨[], 0, 0⟩ } 0 le_rfl (by simpa using h)
    (by simp)
  have hfm := runWalk_fm query mode skip sched (queueW (initQueue skip root))
    { queue := initQueue skip root, acc := ⟨[], 0, 0⟩ } 0 le_rfl
  have hlen : (parallelWalk query mode skip sched root).matched.length =
      (runWalk query mode skip sched 0
        { queue := initQueue skip root, acc := ⟨[], 0, 0⟩ }).acc.matched.length := by
    show (sortStrings _).length = _
    exact (sortStrings_perm _).length_eq
  rw [hlen]
  simp only [] at hcap hfm
  simp at hfm
  omega

/-! ## Bulk evaluation lemmas

The counterexample runs below involve thousands of entries, far beyond
what kernel reduction evaluates; these lemmas compute the loops over
homogeneous entry lists symbolically. -/

/-- Once the cap is reached the entry loop does nothing. -/
theorem workerLoop_capped (query : String) (mode : SearchMode) (skip : Bool)
    (dirPath : String) (l : List FSEntry) (st : WalkState)
    (h : maxResults ≤ st.acc.found) :
    workerLoop query mode skip dirPath l st = st := by
  cases l with
  | nil => rfl
  | cons e rest =>
    simp only [workerLoop]
    rw [if_pos h]

/-- The entry loop splits over list concatenation: the cap check at the
head of each iteration makes a restarted loop agree with a broken one. -/
theorem workerLoop_append (query : String) (mode : SearchMode) (skip : Bool) :
    ∀ (a b : List FSEntry) (dirPath : String) (st : WalkState),
      workerLoop query mode skip dirPath (a ++ b) st =
        workerLoop query mode skip dirPath b (workerLoop query mode skip dirPath a st) := by
  intro a
  induction a with
  | nil => intro b dirPath st; rfl
  | cons e rest ih =>
    intro b dirPath st
    show workerLoop query mode skip dirPath (e :: (rest ++ b)) st = _
    simp only [workerLoop]
    split
    · rename_i h
      rw [workerLoop_capped query mode skip dirPath b st h]
    · split
      · exact ih b dirPath _
      · exact ih b dirPath _

/-- With a full queue, empty query and no skipping, a listing of empty
readable subdirectories is processed entirely inline: every entry is
scanned and matched and the queue is left untouched. -/
theorem workerLoop_dirs_full :
    ∀ (l : List FSEntry) (dirPath : String) (st : WalkState),
      (∀ e ∈ l, ∃ n, e = FSEntry.dir n true []) →
      queueCap ≤ st.queue.length →
      st.acc.found + l.length ≤ maxResults →
      ∃ ms : List String,
        workerLoop "" SearchMode.ModeBoth false dirPath l st =
          { queue := st.queue,
            acc := ⟨ms ++ st.acc.matched, st.acc.scanned + l.length,
              st.acc.found + l.length⟩ } ∧
        ms.length = l.length := by
  intro l
  induction l with
  | nil =>
    intro dirPath st hall hq hcap
    refine ⟨[], ?_, rfl⟩
    show st = _
    cases st with
    | mk q acc =>
      cases acc with
      | mk m s f => simp [workerLoop]
  | cons e rest ih =>
    intro dirPath st hall hq hcap
    obtain ⟨n, hn⟩ := hall e (List.mem_cons_self e rest)
    subst hn
    simp only [workerLoop]
    rw [if_neg (by simp only [List.length_cons] at hcap; omega)]
    rw [if_neg (by simp [pruned])]
    have henq : enqChild "" SearchMode.ModeBoth false
        (joinPath dirPath (FSEntry.dir n true []).name) (FSEntry.dir n true [])
        { st with acc := bumpScan st.acc } =
        { st with acc := bumpScan st.acc } := by
      simp only [enqChild]
      rw [if_neg (by simp; omega)]
      simp [walkInline_nil]
    rw [henq]
    have hadd : addMatch "" SearchMode.ModeBoth
        (lowerS (FSEntry.dir n true []).name)
        (joinPath dirPath (FSEntry.dir n true []).name) (FSEntry.dir n true [])
        (bumpScan st.acc) =
        ⟨joinPath dirPath (FSEntry.dir n true []).name :: st.acc.matched,
          st.acc.scanned + 1, st.acc.found + 1⟩ := by
      rw [addMatch]
      rw [if_pos (by simp [rawMatch_empty, modeOK])]
      simp [bumpScan]
    rw [show ({ st with acc := bumpScan st.acc } : WalkState).acc = bumpScan st.acc from rfl]
    rw [hadd]
    obtain ⟨ms, hms, hlen⟩ := ih dirPath
      { queue := st.queue,
        acc := ⟨joinPath dirPath (FSEntry.dir n true []).name :: st.acc.matched,
          st.acc.scanned + 1, st.acc.found + 1⟩ }
      (fun e2 h2 => hall e2 (List.mem_cons_of_mem _ h2))
      (by simpa using hq)
      (by simp only [List.length_cons] at hcap; simp; omega)
    refine ⟨ms ++ [joinPath dirPath (FSEntry.dir n true []).name], ?_, ?_⟩
    · rw [hms]
      simp only [WalkState.mk.injEq, SearchState.mk.injEq]
      refine ⟨by trivial, ?_, by simp; omega, by simp; omega⟩
      simp
    · simp only [List.length_append, List.length_cons, hlen]
      simp

/-- With the empty query, the inline walk of a listing of plain files
under the cap appends exactly one match per file. -/
theorem walkInline_files :
    ∀ (l : List FSEntry) (dirPath : String) (st : SearchState),
      (∀ e ∈ l, ∃ n, e = FSEntry.file n) →
      st.found + l.length ≤ maxResults →
      walkInline "" SearchMode.ModeBoth false dirPath l st =
        ⟨(l.map (fun e => joinPath dirPath e.name)).reverse ++ st.matched,
          st.scanned + l.length, st.found + l.length⟩ := by
  intro l
  induction l with
  | nil =>
    intro dirPath st hall hcap
    rw [walkInline_nil]
    cases st with
    | mk m s f => simp
  | cons e rest ih =>
    intro dirPath st hall hcap
    obtain ⟨n, hn⟩ := hall e (List.mem_cons_self e rest)
    subst hn
    rw [walkInline_cons]
    rw [if_neg (by simp only [List.length_cons] at hcap; omega)]
    simp only []
    rw [if_neg (by simp [pruned])]
    have hadd : addMatch "" SearchMode.ModeBoth (lowerS (FSEntry.file n).name)
        (joinPath dirPath (FSEntry.file n).name) (FSEntry.file n) (bumpScan st) =
        ⟨joinPath dirPath (FSEntry.file n).name :: st.matched,
          st.scanned + 1, st.found + 1⟩ := by
      rw [addMatch]
      rw [if_pos (by simp [rawMatch_empty, modeOK])]
      simp [bumpScan]
    rw [hadd]
    rw [ih dirPath ⟨joinPath dirPath (FSEntry.file n).name :: st.matched,
        st.scanned + 1, st.found + 1⟩
      (fun e2 h2 => hall e2 (List.mem_cons_of_mem _ h2))
      (by simp only [List.length_cons] at hcap; simp; omega)]
    simp only [SearchState.mk.injEq]
    refine ⟨?_, by simp; omega, by simp; omega⟩
    simp

/-- With the empty query and an unfilled queue, the worker's entry loop
over a listing of plain files under the cap appends exactly one match
per file and leaves the queue alone. -/
theorem workerLoop_files :
    ∀ (l : List FSEntry) (dirPath : String) (st : WalkState),
      (∀ e ∈ l, ∃ n, e = FSEntry.file n) →
      st.acc.found + l.length ≤ maxResults →
      workerLoop "" SearchMode.ModeBoth false dirPath l st =
        { queue := st.queue,
          acc := ⟨(l.map (fun e => joinPath dirPath e.name)).reverse ++ st.acc.matched,
            st.acc.scanned + l.length, st.acc.found + l.length⟩ } := by
  intro l
  induction l with
  | nil =>
    intro dirPath st hall hcap
    cases st with
    | mk q acc =>
      cases acc with
      | mk m s f => simp [workerLoop]
  | cons e rest ih =>
    intro dirPath st hall hcap
    obtain ⟨n, hn⟩ := hall e (List.mem_cons_self e rest)
    subst hn
    simp only [workerLoop]
    rw [if_neg (by simp only [List.length_cons] at hcap; omega)]
    rw [if_neg (by simp [pruned])]
    rw [show enqChild "" SearchMode.ModeBoth false
        (joinPath dirPath (FSEntry.file n).name) (FSEntry.file n)
        { st with acc := bumpScan st.acc } =
        { st with acc := bumpScan st.acc } from rfl]
    have hadd : addMatch "" SearchMode.ModeBoth (lowerS (FSEntry.file n).name)
        (joinPath dirPath (FSEntry.file n).name) (FSEntry.file n)
        ({ st with acc := bumpScan st.acc } : WalkState).acc =
        ⟨joinPath dirPath (FSEntry.file n).name :: st.acc.matched,
          st.acc.scanned + 1, st.acc.found + 1⟩ := by
      rw [addMatch]
      rw [if_pos (by simp [rawMatch_empty, modeOK])]
      simp [bumpScan]
    rw [hadd]
    rw [ih dirPath
      { queue := st.queue,
        acc := ⟨joinPath dirPath (FSEntry.file n).name :: st.acc.matched,
          st.acc.scanned + 1, st.acc.found + 1⟩ }
      (fun e2 h2 => hall e2 (List.mem_cons_of_mem _ h2))
      (by simp only [List.length_cons] at hcap; simp; omega)]
    simp only [WalkState.mk.injEq, SearchState.mk.injEq]
    refine ⟨by trivial, ?_, by simp; omega, by simp; omega⟩
    simp

/-- With the empty query, the worker's entry loop over a listing of
plain files that would pass the cap stops exactly at maxResults: as
many files as the cap allows are scanned and matched, the rest are
abandoned by the per-entry cap check. -/
theorem workerLoop_files_capped :
    ∀ (l : List FSEntry) (dirPath : String) (st : WalkState),
      (∀ e ∈ l, ∃ n, e = FSEntry.file n) →
      maxResults ≤ st.acc.found + l.length →
      st.acc.found ≤ maxResults →
      ∃ ms : List String,
        workerLoop "" SearchMode.ModeBoth false dirPath l st =
          { queue := st.queue,
            acc := ⟨ms ++ st.acc.matched,
              st.acc.scanned + (maxResults - st.acc.found), maxResults⟩ } ∧
        ms.length = maxResults - st.acc.found ∧
        ∀ x ∈ ms, ∃ e ∈ l, x = joinPath dirPath e.name := by
  intro l
  induction l with
  | nil =>
    intro dirPath st hall hover hle
    have heq : st.acc.found = maxResults := Nat.le_antisymm hle (by simpa using hover)
    refine ⟨[], ?_, by simp [heq], by simp⟩
    cases st with
    | mk q acc =>
      cases acc with
      | mk m s f =>
        simp only [workerLoop]
        simp at heq
        simp [heq]
  | cons e rest ih =>
    intro dirPath st hall hover hle
    obtain ⟨n, hn⟩ := hall e (List.mem_cons_self e rest)
    subst hn
    by_cases hfull : maxResults ≤ st.acc.found
    · have heq : st.acc.found = maxResults := Nat.le_antisymm hle hfull
      refine ⟨[], ?_, by simp [heq], by simp⟩
      rw [workerLoop_capped _ _ _ _ _ _ hfull]
      cases st with
      | mk q acc =>
        cases acc with
        | mk m s f =>
          simp at heq
          simp [heq]
    · simp only [workerLoop]
      rw [if_neg hfull]
      rw [if_neg (by simp [pruned])]
      rw [show enqChild "" SearchMode.ModeBoth false
          (joinPath dirPath (FSEntry.file n).name) (FSEntry.file n)
          { st with acc := bumpScan st.acc } =
          { st with acc := bumpScan st.acc } from rfl]
      have hadd : addMatch "" SearchMode.ModeBoth (lowerS (FSEntry.file n).name)
          (joinPath dirPath (FSEntry.file n).name) (FSEntry.file n)
          ({ st with acc := bumpScan st.acc } : WalkState).acc =
          ⟨joinPath dirPath (FSEntry.file n).name :: st.acc.matched,
            st.acc.scanned + 1, st.acc.found + 1⟩ := by
        rw [addMatch]
        rw [if_pos (by simp [rawMatch_empty, modeOK])]
        simp [bumpScan]
      rw [hadd]
      obtain ⟨ms, hms, hlen, hmem⟩ := ih dirPath
        { queue := st.queue,
          acc := ⟨joinPath dirPath (FSEntry.file n).name :: st.acc.matched,
            st.acc.scanned + 1, st.acc.found + 1⟩ }
        (fun e2 h2 => hall e2 (List.mem_cons_of_mem _ h2))
        (by simp only [List.length_cons] at hover; simp; omega)
        (by simp; omega)
      refine ⟨ms ++ [joinPath dirPath (FSEntry.file n).name], ?_, ?_, ?_⟩
      · rw [hms]
        simp only [WalkState.mk.injEq, SearchState.mk.injEq]
        refine ⟨by trivial, ?_, by omega, by trivial⟩
        simp
      · simp only [List.length_append, List.length_cons, hlen]
        simp
        omega
      · intro x hx
        rcases List.mem_append.mp hx with h1 | h2
        · obtain ⟨e2, he2, hx2⟩ := hmem x h1
          exact ⟨e2, List.mem_cons_of_mem _ he2, hx2⟩
        · refine ⟨FSEntry.file n, List.mem_cons_self _ _, ?_⟩
          simpa using h2

/-- In Folders mode a listing of plain files is scanned but produces no
matches, as long as the cap has not been reached. -/
theorem workerLoop_files_folders :
    ∀ (l : List FSEntry) (dirPath : String) (st : WalkState),
      (∀ e ∈ l, ∃ n, e = FSEntry.file n) →
      st.acc.found < maxResults →
      workerLoop "" SearchMode.ModeFolders false dirPath l st =
        { queue := st.queue,
          acc := ⟨st.acc.matched, st.acc.scanned + l.length, st.acc.found⟩ } := by
  intro l
  induction l with
  | nil =>
    intro dirPath st hall hcap
    cases st with
    | mk q acc =>
      cases acc with
      | mk m s f => simp [workerLoop]
  | cons e rest ih =>
    intro dirPath st hall hcap
    obtain ⟨n, hn⟩ := hall e (List.mem_cons_self e rest)
    subst hn
    simp only [workerLoop]
    rw [if_neg (by omega)]
    rw [if_neg (by simp [pruned])]
    rw [show enqChild "" SearchMode.ModeFolders false
        (joinPath dirPath (FSEntry.file n).name) (FSEntry.file n)
        { st with acc := bumpScan st.acc } =
        { st with acc := bumpScan st.acc } from rfl]
    have hadd : addMatch "" SearchMode.ModeFolders (lowerS (FSEntry.file n).name)
        (joinPath dirPath (FSEntry.file n).name) (FSEntry.file n)
        ({ st with acc := bumpScan st.acc } : WalkState).acc =
        ⟨st.acc.matched, st.acc.scanned + 1, st.acc.found⟩ := by
      rw [addMatch]
      rw [if_neg (by simp [modeOK, FSEntry.isDir])]
      simp [bumpScan]
    rw [hadd]
    rw [ih dirPath
      { queue := st.queue, acc := ⟨st.acc.matched, st.acc.scanned + 1, st.acc.found⟩ }
      (fun e2 h2 => hall e2 (List.mem_cons_of_mem _ h2))
      (by simp; omega)]
    simp only [WalkState.mk.injEq, SearchState.mk.injEq]
    refine ⟨by trivial, by trivial, by simp; omega, by trivial⟩

/-- With skipping off, seeding keeps every first-level directory. -/
theorem seedList_length_false :
    ∀ (l : List FSEntry) (p : String), (∀ e ∈ l, e.isDir = true) →
      (seedList false p l).length = l.length := by
  intro l
  induction l with
  | nil => intro p hall; rfl
  | cons e rest ih =>
    intro p hall
    cases e with
    | file n =>
      exact absurd (hall _ (List.mem_cons_self _ _)) (by simp [FSEntry.isDir])
    | dir n readable children =>
      simp only [seedList]
      rw [if_neg (by simp)]
      simp only [List.length_cons]
      rw [ih p (fun e2 h2 => hall e2 (List.mem_cons_of_mem _ h2))]

/-- Under the head schedule, one drain step takes the queue head. -/
theorem runWalk_head (query : String) (mode : SearchMode) (skip : Bool)
    (n : Nat) (st : WalkState) (it0 : QItem) (rest : List QItem)
    (hq : st.queue = it0 :: rest) :
    runWalk query mode skip headSched n st =
      runWalk query mode skip headSched (n + 1)
        (stepDir query mode skip it0 { st with queue := rest }) := by
  rw [runWalk_step query mode skip headSched n st it0 rest hq]
  have h1 : st.queue.getD (headSched n % st.queue.length) it0 = it0 := by
    rw [hq]
    simp [headSched]
  have h2 : st.queue.eraseIdx (headSched n % st.queue.length) = rest := by
    rw [hq]
    simp [headSched]
  rw [h1, h2]

/-- The cap overrun at the heart of the C4 counterexample: with a full
queue, a readable subdirectory holding exactly as many matching files
as the cap still admits is walked inline up to the cap, and then the
unguarded match block of the worker loop appends the subdirectory
itself as match number maxResults + 1. -/
theorem workerLoop_bigdir_full (dirPath n : String) (files : List FSEntry)
    (st : WalkState)
    (hfiles : ∀ e ∈ files, ∃ m, e = FSEntry.file m)
    (hq : queueCap ≤ st.queue.length)
    (hcap : st.acc.found + files.length = maxResults)
    (hpos : 0 < files.length) :
    workerLoop "" SearchMode.ModeBoth false dirPath [FSEntry.dir n true files] st =
      { queue := st.queue,
        acc := ⟨joinPath dirPath (FSEntry.dir n true files).name ::
          ((files.map (fun e =>
            joinPath (joinPath dirPath (FSEntry.dir n true files).name) e.name)).reverse ++
            st.acc.matched),
          st.acc.scanned + 1 + files.length, maxResults + 1⟩ } := by
  simp only [workerLoop]
  rw [if_neg (by omega)]
  rw [if_neg (by simp [pruned])]
  have henq : enqChild "" SearchMode.ModeBoth false
      (joinPath dirPath (FSEntry.dir n true files).name) (FSEntry.dir n true files)
      { st with acc := bumpScan st.acc } =
      { st with acc := (walkInline "" SearchMode.ModeBoth false
          (joinPath dirPath (FSEntry.dir n true files).name) files (bumpScan st.acc)) } := by
    simp only [enqChild]
    rw [if_neg (by simp; omega)]
    simp
  rw [henq]
  rw [walkInline_files files _ (bumpScan st.acc) hfiles (by simp [bumpScan]; omega)]
  have hadd : addMatch "" SearchMode.ModeBoth (lowerS (FSEntry.dir n true files).name)
      (joinPath dirPath (FSEntry.dir n true files).name) (FSEntry.dir n true files)
      (⟨(files.map (fun e =>
          joinPath (joinPath dirPath (FSEntry.dir n true files).name) e.name)).reverse ++
          (bumpScan st.acc).matched,
        (bumpScan st.acc).scanned + files.length,
        (bumpScan st.acc).found + files.length⟩ : SearchState) =
      ⟨joinPath dirPath (FSEntry.dir n true files).name ::
        ((files.map (fun e =>
          joinPath (joinPath dirPath (FSEntry.dir n true files).name) e.name)).reverse ++
          st.acc.matched),
        st.acc.scanned + 1 + files.length, maxResults + 1⟩ := by
    rw [addMatch]
    rw [if_pos (by simp [rawMatch_empty, modeOK])]
    simp only [bumpScan]
    simp only [SearchState.mk.injEq]
    refine ⟨trivial, trivial, by omega⟩
  rw [hadd]

/-! ## The C4 counterexample fixture

A root directory with 4096 empty subdirectories (so the seeded queue
already fills the 4096-slot channel) followed by one subdirectory of
5904 files; with the empty query and skipping off, every entry matches
in Both mode, and the run returns maxResults + 1 matches. -/

/-- Decimal digit character. -/
def dch (n : Nat) : Char := Char.ofNat (48 + n % 10)

/-- Four-digit zero-padded decimal name part, so that the generated
names are pairwise distinct and listed in byte order. -/
def pad4 (i : Nat) : String := ⟨[dch (i / 1000), dch (i / 100), dch (i / 10), dch i]⟩

/-- 4096 empty readable subdirectories d0000 … d4095. -/
def c4seedEntries : List FSEntry :=
  (List.range 4096).map (fun i => FSEntry.dir ("d" ++ pad4 i) true [])

/-- 5904 plain files f0000 … f5903. -/
def c4bigFiles : List FSEntry :=
  (List.range 5904).map (fun i => FSEntry.file ("f" ++ pad4 i))

/-- The root listing: the 4096 seed directories and then the big one. -/
def c4root : QItem :=
  ⟨"root", true, c4seedEntries ++ [FSEntry.dir "e" true c4bigFiles]⟩

theorem c4seedEntries_length : c4seedEntries.length = 4096 := by
  rw [c4seedEntries, List.length_map, List.length_range]

theorem c4bigFiles_length : c4bigFiles.length = 5904 := by
  rw [c4bigFiles, List.length_map, List.length_range]

theorem c4seedEntries_dirs : ∀ e ∈ c4seedEntries, ∃ n, e = FSEntry.dir n true [] := by
  intro e he
  rw [c4seedEntries] at he
  obtain ⟨i, _, hi⟩ := List.mem_map.mp he
  exact ⟨"d" ++ pad4 i, hi.symm⟩

theorem c4bigFiles_files : ∀ e ∈ c4bigFiles, ∃ n, e = FSEntry.file n := by
  intro e he
  rw [c4bigFiles] at he
  obtain ⟨i, _, hi⟩ := List.mem_map.mp he
  exact ⟨"f" ++ pad4 i, hi.symm⟩

theorem c4seed_length :
    (seedList false "root" (c4seedEntries ++ [FSEntry.dir "e" true c4bigFiles])).length =
      4097 := by
  rw [seedList_length_false]
  · rw [List.length_append, c4seedEntries_length]
    rfl
  · intro e he
    rcases List.mem_append.mp he with h1 | h2
    · obtain ⟨n, hn⟩ := c4seedEntries_dirs e h1
      rw [hn]
      rfl
    · simp at h2
      rw [h2]
      rfl

attribute [irreducible] c4seedEntries c4bigFiles

/-- The C4 run: the sequential execution under the head schedule
returns 10001 matches, one more than maxResults. -/
theorem c4_overrun_matches :
    (parallelWalk "" SearchMode.ModeBoth false headSched c4root).matched.length =
      maxResults + 1 := by
  obtain ⟨ms1, hms1, hms1len⟩ := workerLoop_dirs_full c4seedEntries "root"
    { queue := seedList false "root" (c4seedEntries ++ [FSEntry.dir "e" true c4bigFiles]),
      acc := ⟨[], 0, 0⟩ }
    c4seedEntries_dirs
    (by simp only []; rw [c4seed_length]; decide)
    (by simp only []; rw [c4seedEntries_length]; decide)
  simp only [List.append_nil, Nat.zero_add, c4seedEntries_length] at hms1
  rw [c4seedEntries_length] at hms1len
  have hbig := workerLoop_bigdir_full "root" "e" c4bigFiles
    { queue := seedList false "root" (c4seedEntries ++ [FSEntry.dir "e" true c4bigFiles]),
      acc := ⟨ms1, 4096, 4096⟩ }
    c4bigFiles_files
    (by simp only []; rw [c4seed_length]; decide)
    (by simp only []; rw [c4bigFiles_length]; decide)
    (by rw [c4bigFiles_length]; decide)
  simp only [] at hbig
  have hwl : workerLoop "" SearchMode.ModeBoth false "root"
      (c4seedEntries ++ [FSEntry.dir "e" true c4bigFiles])
      { queue := seedList false "root" (c4seedEntries ++ [FSEntry.dir "e" true c4bigFiles]),
        acc := ⟨[], 0, 0⟩ } =
      { queue := seedList false "root" (c4seedEntries ++ [FSEntry.dir "e" true c4bigFiles]),
        acc := ⟨joinPath "root" (FSEntry.dir "e" true c4bigFiles).name ::
          ((c4bigFiles.map (fun e =>
            joinPath (joinPath "root" (FSEntry.dir "e" true c4bigFiles).name) e.name)).reverse ++
            ms1),
          4096 + 1 + c4bigFiles.length, maxResults + 1⟩ } := by
    rw [workerLoop_append, hms1, hbig]
  have hstep : stepDir "" SearchMode.ModeBoth false c4root
      { queue := seedList false "root" (c4seedEntries ++ [FSEntry.dir "e" true c4bigFiles]),
        acc := ⟨[], 0, 0⟩ } =
      { queue := seedList false "root" (c4seedEntries ++ [FSEntry.dir "e" true c4bigFiles]),
        acc := ⟨joinPath "root" (FSEntry.dir "e" true c4bigFiles).name ::
          ((c4bigFiles.map (fun e =>
            joinPath (joinPath "root" (FSEntry.dir "e" true c4bigFiles).name) e.name)).reverse ++
            ms1),
          4096 + 1 + c4bigFiles.length, maxResults + 1⟩ } := by
    rw [stepDir]
    rw [if_neg (by simp only []; decide)]
    rw [if_neg (by decide)]
    exact hwl
  have hq0 : ({ queue := initQueue false c4root, acc := ⟨[], 0, 0⟩ } : WalkState).queue =
      c4root :: seedList false "root" (c4seedEntries ++ [FSEntry.dir "e" true c4bigFiles]) :=
    rfl
  have hrun : (runWalk "" SearchMode.ModeBoth false headSched 0
      { queue := initQueue false c4root, acc := ⟨[], 0, 0⟩ }).acc =
      ⟨joinPath "root" (FSEntry.dir "e" true c4bigFiles).name ::
        ((c4bigFiles.map (fun e =>
          joinPath (joinPath "root" (FSEntry.dir "e" true c4bigFiles).name) e.name)).reverse ++
          ms1),
        4096 + 1 + c4bigFiles.length, maxResults + 1⟩ := by
    rw [runWalk_head "" SearchMode.ModeBoth false 0 _ c4root
      (seedList false "root" (c4seedEntries ++ [FSEntry.dir "e" true c4bigFiles])) hq0]
    simp only []
    rw [hstep]
    exact runWalk_drain "" SearchMode.ModeBoth false headSched _ _ 1 le_rfl
      (by simp only []; omega)
  show (sortStrings (runWalk "" SearchMode.ModeBoth false headSched 0
      { queue := initQueue false c4root, acc := ⟨[], 0, 0⟩ }).acc.matched).length = _
  rw [(sortStrings_perm _).length_eq, hrun]
  simp only [List.length_cons, List.length_append, List.length_reverse, List.length_map]
  rw [c4bigFiles_length, hms1len]
  decide

/-- With room in the queue and the empty query, one readable
subdirectory entry is enqueued and, when the mode accepts directories,
matched. -/
theorem workerLoop_onedir_room (mode : SearchMode) (dirPath n : String)
    (children : List FSEntry) (st : WalkState)
    (hroom : st.queue.length < queueCap)
    (hfound : st.acc.found < maxResults)
    (hmode : modeOK mode (FSEntry.dir n true children) = true) :
    workerLoop "" mode false dirPath [FSEntry.dir n true children] st =
      { queue := ⟨joinPath dirPath (FSEntry.dir n true children).name, true, children⟩ :: st.queue,
        acc := ⟨joinPath dirPath (FSEntry.dir n true children).name :: st.acc.matched,
          st.acc.scanned + 1, st.acc.found + 1⟩ } := by
  simp only [workerLoop]
  rw [if_neg (by omega)]
  rw [if_neg (by simp [pruned])]
  have henq : enqChild "" mode false
      (joinPath dirPath (FSEntry.dir n true children).name) (FSEntry.dir n true children)
      { st with acc := bumpScan st.acc } =
      { queue := ⟨joinPath dirPath (FSEntry.dir n true children).name, true, children⟩ :: st.queue,
        acc := bumpScan st.acc } := by
    simp only [enqChild]
    rw [if_pos (by simpa using hroom)]
  rw [henq]
  have hadd : addMatch "" mode (lowerS (FSEntry.dir n true children).name)
      (joinPath dirPath (FSEntry.dir n true children).name) (FSEntry.dir n true children)
      (bumpScan st.acc) =
      ⟨joinPath dirPath (FSEntry.dir n true children).name :: st.acc.matched,
        st.acc.scanned + 1, st.acc.found + 1⟩ := by
    rw [addMatch]
    rw [if_pos (by simp [rawMatch_empty, hmode])]
    simp [bumpScan]
  rw [show ({ queue := (⟨joinPath dirPath (FSEntry.dir n true children).name, true, children⟩ : QItem) :: st.queue, acc := bumpScan st.acc } : WalkState).acc = bumpScan st.acc from rfl]
  rw [hadd]

/-- Seeding splits over list concatenation. -/
theorem seedList_append (skip : Bool) (p : String) :
    ∀ (a b : List FSEntry),
      seedList skip p (a ++ b) = seedList skip p a ++ seedList skip p b := by
  intro a
  induction a with
  | nil => intro b; rfl
  | cons e rest ih =>
    intro b
    cases e with
    | file n =>
      show seedList skip p (rest ++ b) = _
      rw [ih]
      rfl
    | dir n readable children =>
      show seedList skip p ((FSEntry.dir n readable children) :: (rest ++ b)) = _
      simp only [seedList]
      split
      · rw [ih]
      · rw [ih]
        rfl

/-- Plain files are never seeded. -/
theorem seedList_files (skip : Bool) (p : String) :
    ∀ (l : List FSEntry), (∀ e ∈ l, ∃ n, e = FSEntry.file n) →
      seedList skip p l = [] := by
  intro l
  induction l with
  | nil => intro hall; rfl
  | cons e rest ih =>
    intro hall
    obtain ⟨n, hn⟩ := hall e (List.mem_cons_self e rest)
    subst hn
    show seedList skip p rest = []
    exact ih (fun e2 h2 => hall e2 (List.mem_cons_of_mem _ h2))

/-! ## The C6 counterexample fixture

A root with 10000 matching files and one directory z listed last: with
the empty query, the Both run exhausts the cap on the files and never
reaches z, while the Folders run matches only z; so the Both result is
not the union of the Files and Folders results. -/

/-- 10000 plain files f0000 … f9999. -/
def c6files : List FSEntry :=
  (List.range 10000).map (fun i => FSEntry.file ("f" ++ pad4 i))

/-- The root listing: the files and then the directory z. -/
def c6root : QItem := ⟨"root", true, c6files ++ [FSEntry.dir "z" true []]⟩

theorem c6files_length : c6files.length = 10000 := by
  rw [c6files, List.length_map, List.length_range]

theorem c6files_files : ∀ e ∈ c6files, ∃ n, e = FSEntry.file n := by
  intro e he
  rw [c6files] at he
  obtain ⟨i, _, hi⟩ := List.mem_map.mp he
  exact ⟨"f" ++ pad4 i, hi.symm⟩

attribute [irreducible] c6files

theorem c6seed : seedList false "root" c6root.entries =
    [⟨joinPath "root" "z", true, []⟩] := by
  show seedList false "root" (c6files ++ [FSEntry.dir "z" true []]) = _
  rw [seedList_append, seedList_files false "root" c6files c6files_files]
  rfl

theorem c6_join_len (i : Nat) : (joinPath "root" ("f" ++ pad4 i)).data.length = 10 := by
  have h : (joinPath "root" ("f" ++ pad4 i)).data =
      "root".data ++ "/".data ++ ("f".data ++ (pad4 i).data) := rfl
  rw [h]
  simp [pad4]

/-- The Folders run on the C6 fixture returns the directory z. -/
theorem c6_folders_mem :
    "root/z" ∈ (parallelWalk "" SearchMode.ModeFolders false headSched c6root).matched := by
  have hfiles := workerLoop_files_folders c6files "root"
    { queue := [⟨joinPath "root" "z", true, []⟩], acc := ⟨[], 0, 0⟩ }
    c6files_files (by decide)
  simp only [c6files_length] at hfiles
  have honed := workerLoop_onedir_room SearchMode.ModeFolders "root" "z" []
    { queue := [⟨joinPath "root" "z", true, []⟩], acc := ⟨[], 0 + 10000, 0⟩ }
    (by decide) (by decide) rfl
  simp only [] at honed
  have hwl : workerLoop "" SearchMode.ModeFolders false "root" c6root.entries
      { queue := [⟨joinPath "root" "z", true, []⟩], acc := ⟨[], 0, 0⟩ } =
      { queue := ⟨joinPath "root" (FSEntry.dir "z" true []).name, true, []⟩ ::
          [⟨joinPath "root" "z", true, []⟩],
        acc := ⟨[joinPath "root" (FSEntry.dir "z" true []).name], 0 + 10000 + 1, 0 + 1⟩ } := by
    rw [show c6root.entries = c6files ++ [FSEntry.dir "z" true []] from rfl]
    rw [workerLoop_append, hfiles, honed]
  have hstep0 : stepDir "" SearchMode.ModeFolders false c6root
      { queue := [⟨joinPath "root" "z", true, []⟩], acc := ⟨[], 0, 0⟩ } =
      { queue := ⟨joinPath "root" (FSEntry.dir "z" true []).name, true, []⟩ ::
          [⟨joinPath "root" "z", true, []⟩],
        acc := ⟨[joinPath "root" (FSEntry.dir "z" true []).name], 0 + 10000 + 1, 0 + 1⟩ } := by
    rw [stepDir]
    rw [if_neg (by simp only []; decide)]
    rw [if_neg (by decide)]
    exact hwl
  have hstep1 : stepDir "" SearchMode.ModeFolders false
      ⟨joinPath "root" (FSEntry.dir "z" true []).name, true, []⟩
      { queue := [⟨joinPath "root" "z", true, []⟩],
        acc := ⟨[joinPath "root" (FSEntry.dir "z" true []).name], 0 + 10000 + 1, 0 + 1⟩ } =
      { queue := [⟨joinPath "root" "z", true, []⟩],
        acc := ⟨[joinPath "root" (FSEntry.dir "z" true []).name], 0 + 10000 + 1, 0 + 1⟩ } := by
    rw [stepDir]
    rw [if_neg (by simp only []; decide)]
    rw [if_neg (by decide)]
    rfl
  have hstep2 : stepDir "" SearchMode.ModeFolders false ⟨joinPath "root" "z", true, []⟩
      { queue := [],
        acc := ⟨[joinPath "root" (FSEntry.dir "z" true []).name], 0 + 10000 + 1, 0 + 1⟩ } =
      { queue := [],
        acc := ⟨[joinPath "root" (FSEntry.dir "z" true []).name], 0 + 10000 + 1, 0 + 1⟩ } := by
    rw [stepDir]
    rw [if_neg (by simp only []; decide)]
    rw [if_neg (by decide)]
    rfl
  have hq0 : ({ queue := initQueue false c6root, acc := ⟨[], 0, 0⟩ } : WalkState).queue =
      c6root :: [⟨joinPath "root" "z", true, []⟩] := by
    show initQueue false c6root = _
    rw [show initQueue false c6root =
      c6root :: seedList false "root" c6root.entries from rfl]
    rw [c6seed]
  have hrun : (runWalk "" SearchMode.ModeFolders false headSched 0
      { queue := initQueue false c6root, acc := ⟨[], 0, 0⟩ }).acc =
      ⟨[joinPath "root" (FSEntry.dir "z" true []).name], 0 + 10000 + 1, 0 + 1⟩ := by
    rw [runWalk_head "" SearchMode.ModeFolders false 0 _ c6root
      [⟨joinPath "root" "z", true, []⟩] hq0]
    simp only []
    rw [hstep0]
    rw [runWalk_head "" SearchMode.ModeFolders false 1 _
      ⟨joinPath "root" (FSEntry.dir "z" true []).name, true, []⟩
      [⟨joinPath "root" "z", true, []⟩] rfl]
    simp only []
    rw [hstep1]
    rw [runWalk_head "" SearchMode.ModeFolders false 2 _
      ⟨joinPath "root" "z", true, []⟩ [] rfl]
    simp only []
    rw [hstep2]
    rw [runWalk_empty "" SearchMode.ModeFolders false headSched 3 _ rfl]
  show "root/z" ∈ sortStrings (runWalk "" SearchMode.ModeFolders false headSched 0
      { queue := initQueue false c6root, acc := ⟨[], 0, 0⟩ }).acc.matched
  refine mem_sortStrings.mpr ?_
  rw [hrun]
  show "root/z" ∈ [joinPath "root" (FSEntry.dir "z" true []).name]
  rw [show joinPath "root" (FSEntry.dir "z" true []).name = "root/z" from rfl]
  exact List.mem_singleton.mpr rfl

/-- The Both run on the C6 fixture exhausts the cap on the files and
never returns the directory z. -/
theorem c6_both_not_mem :
    "root/z" ∉ (parallelWalk "" SearchMode.ModeBoth false headSched c6root).matched := by
  have hfiles := workerLoop_files c6files "root"
    { queue := [⟨joinPath "root" "z", true, []⟩], acc := ⟨[], 0, 0⟩ }
    c6files_files (by simp only []; rw [c6files_length]; decide)
  simp only [c6files_length] at hfiles
  have hwl : workerLoop "" SearchMode.ModeBoth false "root" c6root.entries
      { queue := [⟨joinPath "root" "z", true, []⟩], acc := ⟨[], 0, 0⟩ } =
      { queue := [⟨joinPath "root" "z", true, []⟩],
        acc := ⟨(c6files.map (fun e => joinPath "root" e.name)).reverse ++ [],
          0 + 10000, 0 + 10000⟩ } := by
    rw [show c6root.entries = c6files ++ [FSEntry.dir "z" true []] from rfl]
    rw [workerLoop_append, hfiles]
    exact workerLoop_capped "" SearchMode.ModeBoth false "root" _ _ (by simp only []; decide)
  have hstep0 : stepDir "" SearchMode.ModeBoth false c6root
      { queue := [⟨joinPath "root" "z", true, []⟩], acc := ⟨[], 0, 0⟩ } =
      { queue := [⟨joinPath "root" "z", true, []⟩],
        acc := ⟨(c6files.map (fun e => joinPath "root" e.name)).reverse ++ [],
          0 + 10000, 0 + 10000⟩ } := by
    rw [stepDir]
    rw [if_neg (by simp only []; decide)]
    rw [if_neg (by decide)]
    exact hwl
  have hq0 : ({ queue := initQueue false c6root, acc := ⟨[], 0, 0⟩ } : WalkState).queue =
      c6root :: [⟨joinPath "root" "z", true, []⟩] := by
    show initQueue false c6root = _
    rw [show initQueue false c6root =
      c6root :: seedList false "root" c6root.entries from rfl]
    rw [c6seed]
  have hrun : (runWalk "" SearchMode.ModeBoth false headSched 0
      { queue := initQueue false c6root, acc := ⟨[], 0, 0⟩ }).acc =
      ⟨(c6files.map (fun e => joinPath "root" e.name)).reverse ++ [],
        0 + 10000, 0 + 10000⟩ := by
    rw [runWalk_head "" SearchMode.ModeBoth false 0 _ c6root
      [⟨joinPath "root" "z", true, []⟩] hq0]
    simp only []
    rw [hstep0]
    exact runWalk_drain "" SearchMode.ModeBoth false headSched _ _ 1 le_rfl
      (by simp only []; decide)
  intro hmem
  have hmem2 : "root/z" ∈ (runWalk "" SearchMode.ModeBoth false headSched 0
      { queue := initQueue false c6root, acc := ⟨[], 0, 0⟩ }).acc.matched :=
    mem_sortStrings.mp hmem
  rw [hrun] at hmem2
  simp only [List.append_nil, List.mem_reverse] at hmem2
  obtain ⟨e, he, hxe⟩ := List.mem_map.mp hmem2
  rw [c6files] at he
  obtain ⟨i, _, hi⟩ := List.mem_map.mp he
  rw [← hi] at hxe
  have hlen := congrArg (fun s => s.data.length) hxe
  simp only [FSEntry.name] at hlen
  rw [c6_join_len i] at hlen
  exact absurd hlen (by decide)

/-! ## The C8 counterexample fixture

A root with subdirectory A holding 10000 matching files and
subdirectory B holding one matching file: with the empty query, a
schedule that drains A before B exhausts the cap before B's file is
ever read, while the head schedule reads B's file first; the two
returned match lists differ. -/

/-- The root listing for the schedule-dependence counterexample. -/
def c8root : QItem :=
  ⟨"root", true, [FSEntry.dir "A" true c6files,
    FSEntry.dir "B" true [FSEntry.file "mB"]]⟩

/-- The schedule that, at its second dequeue, picks the queued A
subtree instead of the queue head. -/
def c8sched1 : Nat → Nat := fun n => if n = 1 then 1 else 0

/-- One drain step at an arbitrary picked index, with the pick and the
removal supplied as equations. -/
theorem runWalk_pick (query : String) (mode : SearchMode) (skip : Bool)
    (sched : Nat → Nat) (n : Nat) (st : WalkState) (it0 it : QItem)
    (rest q2 : List QItem) (hq : st.queue = it0 :: rest)
    (hpick : st.queue.getD (sched n % st.queue.length) it0 = it)
    (herase : st.queue.eraseIdx (sched n % st.queue.length) = q2) :
    runWalk query mode skip sched n st =
      runWalk query mode skip sched (n + 1)
        (stepDir query mode skip it { st with queue := q2 }) := by
  rw [runWalk_step query mode skip sched n st it0 rest hq, hpick, herase]

theorem c8seed : seedList false "root" c8root.entries =
    [⟨joinPath "root" "A", true, c6files⟩,
     ⟨joinPath "root" "B", true, [FSEntry.file "mB"]⟩] := rfl

/-- Processing the root listing of the C8 fixture enqueues A and B and
matches both. -/
theorem c8_root_step :
    stepDir "" SearchMode.ModeBoth false c8root
      { queue := [⟨joinPath "root" "A", true, c6files⟩,
          ⟨joinPath "root" "B", true, [FSEntry.file "mB"]⟩], acc := ⟨[], 0, 0⟩ } =
      { queue := ⟨joinPath "root" (FSEntry.dir "B" true [FSEntry.file "mB"]).name, true,
            [FSEntry.file "mB"]⟩ ::
          ⟨joinPath "root" (FSEntry.dir "A" true c6files).name, true, c6files⟩ ::
          [⟨joinPath "root" "A", true, c6files⟩,
           ⟨joinPath "root" "B", true, [FSEntry.file "mB"]⟩],
        acc := ⟨[joinPath "root" (FSEntry.dir "B" true [FSEntry.file "mB"]).name,
          joinPath "root" (FSEntry.dir "A" true c6files).name], 0 + 1 + 1, 0 + 1 + 1⟩ } := by
  have hA := workerLoop_onedir_room SearchMode.ModeBoth "root" "A" c6files
    { queue := [⟨joinPath "root" "A", true, c6files⟩,
        ⟨joinPath "root" "B", true, [FSEntry.file "mB"]⟩], acc := ⟨[], 0, 0⟩ }
    (by decide) (by decide) rfl
  simp only [] at hA
  have hB := workerLoop_onedir_room SearchMode.ModeBoth "root" "B" [FSEntry.file "mB"]
    { queue := ⟨joinPath "root" (FSEntry.dir "A" true c6files).name, true, c6files⟩ ::
        [⟨joinPath "root" "A", true, c6files⟩,
         ⟨joinPath "root" "B", true, [FSEntry.file "mB"]⟩],
      acc := ⟨[joinPath "root" (FSEntry.dir "A" true c6files).name], 0 + 1, 0 + 1⟩ }
    (by decide) (by decide) rfl
  simp only [] at hB
  rw [stepDir]
  rw [if_neg (by simp only []; decide)]
  rw [if_neg (by decide)]
  show workerLoop "" SearchMode.ModeBoth false "root"
      ([FSEntry.dir "A" true c6files] ++ [FSEntry.dir "B" true [FSEntry.file "mB"]])
      { queue := [⟨joinPath "root" "A", true, c6files⟩,
          ⟨joinPath "root" "B", true, [FSEntry.file "mB"]⟩], acc := ⟨[], 0, 0⟩ } = _
  rw [workerLoop_append, hA, hB]

theorem c8_join_len (i : Nat) :
    (joinPath (joinPath "root" "A") ("f" ++ pad4 i)).data.length = 12 := by
  have h : (joinPath (joinPath "root" "A") ("f" ++ pad4 i)).data =
      "root".data ++ "/".data ++ "A".data ++ "/".data ++ ("f".data ++ (pad4 i).data) := rfl
  rw [h]
  simp [pad4]

/-- Under the A-first schedule, B's file is never reported: the cap is
exhausted inside A. -/
theorem c8_run_afirst :
    "root/B/mB" ∉ (parallelWalk "" SearchMode.ModeBoth false c8sched1 c8root).matched := by
  obtain ⟨ms, hms, hmslen, hmsmem⟩ := workerLoop_files_capped c6files
    (joinPath "root" (FSEntry.dir "A" true c6files).name)
    { queue := [⟨joinPath "root" (FSEntry.dir "B" true [FSEntry.file "mB"]).name, true,
        [FSEntry.file "mB"]⟩,
        ⟨joinPath "root" "A", true, c6files⟩,
        ⟨joinPath "root" "B", true, [FSEntry.file "mB"]⟩],
      acc := ⟨[joinPath "root" (FSEntry.dir "B" true [FSEntry.file "mB"]).name,
        joinPath "root" (FSEntry.dir "A" true c6files).name], 0 + 1 + 1, 0 + 1 + 1⟩ }
    c6files_files
    (by simp only []; rw [c6files_length]; decide)
    (by simp only []; decide)
  simp only [] at hms
  have hstep1 : stepDir "" SearchMode.ModeBoth false
      ⟨joinPath "root" (FSEntry.dir "A" true c6files).name, true, c6files⟩
      { queue := [⟨joinPath "root" (FSEntry.dir "B" true [FSEntry.file "mB"]).name, true,
          [FSEntry.file "mB"]⟩,
          ⟨joinPath "root" "A", true, c6files⟩,
          ⟨joinPath "root" "B", true, [FSEntry.file "mB"]⟩],
        acc := ⟨[joinPath "root" (FSEntry.dir "B" true [FSEntry.file "mB"]).name,
          joinPath "root" (FSEntry.dir "A" true c6files).name], 0 + 1 + 1, 0 + 1 + 1⟩ } =
      { queue := [⟨joinPath "root" (FSEntry.dir "B" true [FSEntry.file "mB"]).name, true,
          [FSEntry.file "mB"]⟩,
          ⟨joinPath "root" "A", true, c6files⟩,
          ⟨joinPath "root" "B", true, [FSEntry.file "mB"]⟩],
        acc := ⟨ms ++ [joinPath "root" (FSEntry.dir "B" true [FSEntry.file "mB"]).name,
          joinPath "root" (FSEntry.dir "A" true c6files).name],
          0 + 1 + 1 + (maxResults - (0 + 1 + 1)), maxResults⟩ } := by
    rw [stepDir]
    rw [if_neg (by simp only []; decide)]
    rw [if_neg (by decide)]
    exact hms
  have hrun : (runWalk "" SearchMode.ModeBoth false c8sched1 0
      { queue := initQueue false c8root, acc := ⟨[], 0, 0⟩ }).acc =
      ⟨ms ++ [joinPath "root" (FSEntry.dir "B" true [FSEntry.file "mB"]).name,
        joinPath "root" (FSEntry.dir "A" true c6files).name],
        0 + 1 + 1 + (maxResults - (0 + 1 + 1)), maxResults⟩ := by
    rw [runWalk_pick "" SearchMode.ModeBoth false c8sched1 0
      { queue := initQueue false c8root, acc := ⟨[], 0, 0⟩ } c8root c8root
      [⟨joinPath "root" "A", true, c6files⟩,
       ⟨joinPath "root" "B", true, [FSEntry.file "mB"]⟩]
      [⟨joinPath "root" "A", true, c6files⟩,
       ⟨joinPath "root" "B", true, [FSEntry.file "mB"]⟩] rfl rfl rfl]
    simp only []
    rw [c8_root_step]
    rw [runWalk_pick "" SearchMode.ModeBoth false c8sched1 1
      { queue := ⟨joinPath "root" (FSEntry.dir "B" true [FSEntry.file "mB"]).name, true,
            [FSEntry.file "mB"]⟩ ::
          ⟨joinPath "root" (FSEntry.dir "A" true c6files).name, true, c6files⟩ ::
          [⟨joinPath "root" "A", true, c6files⟩,
           ⟨joinPath "root" "B", true, [FSEntry.file "mB"]⟩],
        acc := ⟨[joinPath "root" (FSEntry.dir "B" true [FSEntry.file "mB"]).name,
          joinPath "root" (FSEntry.dir "A" true c6files).name], 0 + 1 + 1, 0 + 1 + 1⟩ }
      ⟨joinPath "root" (FSEntry.dir "B" true [FSEntry.file "mB"]).name, true,
        [FSEntry.file "mB"]⟩
      ⟨joinPath "root" (FSEntry.dir "A" true c6files).name, true, c6files⟩
      (⟨joinPath "root" (FSEntry.dir "A" true c6files).name, true, c6files⟩ ::
        [⟨joinPath "root" "A", true, c6files⟩,
         ⟨joinPath "root" "B", true, [FSEntry.file "mB"]⟩])
      [⟨joinPath "root" (FSEntry.dir "B" true [FSEntry.file "mB"]).name, true,
          [FSEntry.file "mB"]⟩,
        ⟨joinPath "root" "A", true, c6files⟩,
        ⟨joinPath "root" "B", true, [FSEntry.file "mB"]⟩] rfl rfl rfl]
    simp only []
    rw [hstep1]
    exact runWalk_drain "" SearchMode.ModeBoth false c8sched1 _ _ 2 le_rfl
      (by simp only []; decide)
  intro hmem
  have hmem2 : "root/B/mB" ∈ (runWalk "" SearchMode.ModeBoth false c8sched1 0
      { queue := initQueue false c8root, acc := ⟨[], 0, 0⟩ }).acc.matched :=
    mem_sortStrings.mp hmem
  rw [hrun] at hmem2
  rcases List.mem_append.mp hmem2 with h1 | h2
  · obtain ⟨e, he, hxe⟩ := hmsmem _ h1
    rw [c6files] at he
    obtain ⟨i, _, hi⟩ := List.mem_map.mp he
    rw [← hi] at hxe
    have hlen := congrArg (fun s => s.data.length) hxe
    simp only [FSEntry.name] at hlen
    rw [c8_join_len i] at hlen
    exact absurd hlen (by decide)
  · rcases List.mem_cons.mp h2 with h3 | h4
    · exact absurd h3 (by decide)
    · rcases List.mem_cons.mp h4 with h5 | h6
      · exact absurd h5 (by decide)
      · simp at h6

/-- Under the head schedule, B's file is reported before the cap is
exhausted inside A. -/
theorem c8_run_bfirst :
    "root/B/mB" ∈ (parallelWalk "" SearchMode.ModeBoth false headSched c8root).matched := by
  have hB := workerLoop_files [FSEntry.file "mB"]
    (joinPath "root" (FSEntry.dir "B" true [FSEntry.file "mB"]).name)
    { queue := [⟨joinPath "root" (FSEntry.dir "A" true c6files).name, true, c6files⟩,
        ⟨joinPath "root" "A", true, c6files⟩,
        ⟨joinPath "root" "B", true, [FSEntry.file "mB"]⟩],
      acc := ⟨[joinPath "root" (FSEntry.dir "B" true [FSEntry.file "mB"]).name,
        joinPath "root" (FSEntry.dir "A" true c6files).name], 0 + 1 + 1, 0 + 1 + 1⟩ }
    (by intro e he; simp at he; exact ⟨"mB", he⟩)
    (by simp only []; decide)
  simp only [] at hB
  have hstep1 : stepDir "" SearchMode.ModeBoth false
      ⟨joinPath "root" (FSEntry.dir "B" true [FSEntry.file "mB"]).name, true,
        [FSEntry.file "mB"]⟩
      { queue := [⟨joinPath "root" (FSEntry.dir "A" true c6files).name, true, c6files⟩,
          ⟨joinPath "root" "A", true, c6files⟩,
          ⟨joinPath "root" "B", true, [FSEntry.file "mB"]⟩],
        acc := ⟨[joinPath "root" (FSEntry.dir "B" true [FSEntry.file "mB"]).name,
          joinPath "root" (FSEntry.dir "A" true c6files).name], 0 + 1 + 1, 0 + 1 + 1⟩ } =
      { queue := [⟨joinPath "root" (FSEntry.dir "A" true c6files).name, true, c6files⟩,
          ⟨joinPath "root" "A", true, c6files⟩,
          ⟨joinPath "root" "B", true, [FSEntry.file "mB"]⟩],
        acc := ⟨(([FSEntry.file "mB"].map (fun e =>
            joinPath (joinPath "root" (FSEntry.dir "B" true [FSEntry.file "mB"]).name)
              e.name)).reverse ++
          [joinPath "root" (FSEntry.dir "B" true [FSEntry.file "mB"]).name,
           joinPath "root" (FSEntry.dir "A" true c6files).name]),
          0 + 1 + 1 + 1, 0 + 1 + 1 + 1⟩ } := by
    rw [stepDir]
    rw [if_neg (by simp only []; decide)]
    rw [if_neg (by decide)]
    rw [hB]
    rfl
  obtain ⟨ms, hms, hmslen, hmsmem⟩ := workerLoop_files_capped c6files
    (joinPath "root" (FSEntry.dir "A" true c6files).name)
    { queue := [⟨joinPath "root" "A", true, c6files⟩,
        ⟨joinPath "root" "B", true, [FSEntry.file "mB"]⟩],
      acc := ⟨(([FSEntry.file "mB"].map (fun e =>
          joinPath (joinPath "root" (FSEntry.dir "B" true [FSEntry.file "mB"]).name)
            e.name)).reverse ++
        [joinPath "root" (FSEntry.dir "B" true [FSEntry.file "mB"]).name,
         joinPath "root" (FSEntry.dir "A" true c6files).name]),
        0 + 1 + 1 + 1, 0 + 1 + 1 + 1⟩ }
    c6files_files
    (by simp only []; rw [c6files_length]; decide)
    (by simp only []; decide)
  simp only [] at hms
  have hstep2 : stepDir "" SearchMode.ModeBoth false
      ⟨joinPath "root" (FSEntry.dir "A" true c6files).name, true, c6files⟩
      { queue := [⟨joinPath "root" "A", true, c6files⟩,
          ⟨joinPath "root" "B", true, [FSEntry.file "mB"]⟩],
        acc := ⟨(([FSEntry.file "mB"].map (fun e =>
            joinPath (joinPath "root" (FSEntry.dir "B" true [FSEntry.file "mB"]).name)
              e.name)).reverse ++
          [joinPath "root" (FSEntry.dir "B" true [FSEntry.file "mB"]).name,
           joinPath "root" (FSEntry.dir "A" true c6files).name]),
          0 + 1 + 1 + 1, 0 + 1 + 1 + 1⟩ } =
      { queue := [⟨joinPath "root" "A", true, c6files⟩,
          ⟨joinPath "root" "B", true, [FSEntry.file "mB"]⟩],
        acc := ⟨ms ++ (([FSEntry.file "mB"].map (fun e =>
            joinPath (joinPath "root" (FSEntry.dir "B" true [FSEntry.file "mB"]).name)
              e.name)).reverse ++
          [joinPath "root" (FSEntry.dir "B" true [FSEntry.file "mB"]).name,
           joinPath "root" (FSEntry.dir "A" true c6files).name]),
          0 + 1 + 1 + 1 + (maxResults - (0 + 1 + 1 + 1)), maxResults⟩ } := by
    rw [stepDir]
    rw [if_neg (by simp only []; decide)]
    rw [if_neg (by decide)]
    exact hms
  have hrun : (runWalk "" SearchMode.ModeBoth false headSched 0
      { queue := initQueue false c8root, acc := ⟨[], 0, 0⟩ }).acc =
      ⟨ms ++ (([FSEntry.file "mB"].map (fun e =>
          joinPath (joinPath "root" (FSEntry.dir "B" true [FSEntry.file "mB"]).name)
            e.name)).reverse ++
        [joinPath "root" (FSEntry.dir "B" true [FSEntry.file "mB"]).name,
         joinPath "root" (FSEntry.dir "A" true c6files).name]),
        0 + 1 + 1 + 1 + (maxResults - (0 + 1 + 1 + 1)), maxResults⟩ := by
    rw [runWalk_head "" SearchMode.ModeBoth false 0 _ c8root
      [⟨joinPath "root" "A", true, c6files⟩,
       ⟨joinPath "root" "B", true, [FSEntry.file "mB"]⟩] rfl]
    simp only []
    rw [c8_root_step]
    rw [runWalk_head "" SearchMode.ModeBoth false 1 _
      ⟨joinPath "root" (FSEntry.dir "B" true [FSEntry.file "mB"]).name, true,
        [FSEntry.file "mB"]⟩
      (⟨joinPath "root" (FSEntry.dir "A" true c6files).name, true, c6files⟩ ::
        [⟨joinPath "root" "A", true, c6files⟩,
         ⟨joinPath "root" "B", true, [FSEntry.file "mB"]⟩]) rfl]
    simp only []
    rw [hstep1]
    rw [runWalk_head "" SearchMode.ModeBoth false 2 _
      ⟨joinPath "root" (FSEntry.dir "A" true c6files).name, true, c6files⟩
      [⟨joinPath "root" "A", true, c6files⟩,
       ⟨joinPath "root" "B", true, [FSEntry.file "mB"]⟩] rfl]
    simp only []
    rw [hstep2]
    exact runWalk_drain "" SearchMode.ModeBoth false headSched _ _ 3 le_rfl
      (by simp only []; decide)
  show "root/B/mB" ∈ sortStrings (runWalk "" SearchMode.ModeBoth false headSched 0
      { queue := initQueue false c8root, acc := ⟨[], 0, 0⟩ }).acc.matched
  refine mem_sortStrings.mpr ?_
  rw [hrun]
  refine List.mem_append.mpr (Or.inr ?_)
  refine List.mem_append.mpr (Or.inl ?_)
  show "root/B/mB" ∈ ([joinPath (joinPath "root"
    (FSEntry.dir "B" true [FSEntry.file "mB"]).name) (FSEntry.file "mB").name].reverse)
  simp
  decide

/-- The capless matches of one subtree in Files mode and in Folders
mode together are, as a multiset, exactly its capless matches in Both
mode: each entry's own match lands in exactly one of the two. -/
theorem pureChildren_modes (query : String) (skip : Bool) :
    ∀ (W : Nat) (l : List FSEntry) (dirPath : String), entriesSize l ≤ W →
      List.Perm ((pureChildren query SearchMode.ModeFiles skip dirPath l).1 ++
        (pureChildren query SearchMode.ModeFolders skip dirPath l).1)
        (pureChildren query SearchMode.ModeBoth skip dirPath l).1 := by
  intro W
  induction W with
  | zero =>
    intro l dirPath hW
    cases l with
    | nil => simp [pureChildren, pureChildrenF]
    | cons e rest =>
      exfalso
      have := entrySize_pos e
      simp [entriesSize] at hW
      omega
  | succ W ih =>
    intro l dirPath hW
    cases l with
    | nil => simp [pureChildren, pureChildrenF]
    | cons e rest =>
      rw [pureChildren_cons, pureChildren_cons, pureChildren_cons]
      simp only []
      have hrest : entriesSize rest ≤ W := by
        have := entrySize_pos e
        simp [entriesSize] at hW
        omega
      have ihr := ih rest dirPath hrest
      by_cases hp : pruned skip e (lowerS e.name) = true
      · rw [if_pos hp, if_pos hp, if_pos hp]
        exact ihr
      · rw [if_neg hp, if_neg hp, if_neg hp]
        simp only []
        cases e with
        | file n =>
          simp only [modeOK, FSEntry.isDir, Bool.not_false, Bool.and_true, Bool.and_false]
          by_cases hr : rawMatch query (lowerS (FSEntry.file n).name)
              (joinPath dirPath (FSEntry.file n).name) = true
          · rw [if_pos hr]
            rw [if_neg (by simp)]
            simp only [List.append_nil]
            exact (perm_shuffle _ _ _).trans (ihr.append_right _)
          · rw [if_neg hr]
            rw [if_neg (by simp)]
            simp only [List.append_nil]
            exact ihr
        | dir n readable children =>
          simp only [modeOK, FSEntry.isDir, Bool.not_true, Bool.and_true, Bool.and_false]
          cases readable with
          | false =>
            simp only [Bool.false_eq_true, ite_false]
            by_cases hr : rawMatch query (lowerS (FSEntry.dir n false children).name)
                (joinPath dirPath (FSEntry.dir n false children).name) = true
            · rw [if_pos hr]
              simp only [List.append_nil]
              rw [← List.append_assoc]
              exact (ihr.append_right _)
            · rw [if_neg hr]
              simp only [List.append_nil]
              exact ihr
          | true =>
            simp only [ite_true]
            have hch : entriesSize children ≤ W := by
              simp only [entriesSize, entrySize] at hW
              omega
            have ihc := ih children (joinPath dirPath (FSEntry.dir n true children).name) hch
            by_cases hr : rawMatch query (lowerS (FSEntry.dir n true children).name)
                (joinPath dirPath (FSEntry.dir n true children).name) = true
            · rw [if_pos hr, if_pos hr]
              rw [if_neg (by simp)]
              refine (perm_swap_mid _ _ _ _).trans ?_
              exact ihr.append (List.perm_middle.trans (ihc.cons _))
            · rw [if_neg hr, if_neg hr]
              rw [if_neg (by simp)]
              exact (perm_swap_mid _ _ _ _).trans (ihr.append ihc)

/-- The mode partition lifted to whole queues. -/
theorem pureQueue_modes (query : String) (skip : Bool) :
    ∀ (q : List QItem),
      List.Perm ((pureQueue query SearchMode.ModeFiles skip q).1 ++
        (pureQueue query SearchMode.ModeFolders skip q).1)
        (pureQueue query SearchMode.ModeBoth skip q).1 := by
  intro q
  induction q with
  | nil => simp [pureQueue]
  | cons it t ih =>
    simp only [pureQueue]
    refine (perm_swap_mid _ _ _ _).trans ?_
    refine ih.append ?_
    rw [pureItem, pureItem, pureItem]
    split
    · exact pureChildren_modes query skip (entriesSize it.entries) it.entries it.path le_rfl
    · simp

/-! ## The queue-close protocol of parallelWalk

The wait-group discipline of parallelWalk (the pending counter, the
seeding phase, the worker loop and the closer goroutine that runs
pending.Wait() before close(dirQueue)) is a counting protocol
independent of the filesystem data; it is embedded as a transition
system over the counters. -/

/-- The observable counters of one parallelWalk execution: directories
buffered in dirQueue, directories dequeued and in processing,
the pending wait-group counter, whether the seeding loop is still
running (the closer goroutine is spawned only after it), and whether
dirQueue has been closed. -/
structure PoolState where
  queued : Nat
  inflight : Nat
  pending : Nat
  seeding : Bool
  closed : Bool
deriving DecidableEq

/-- The atomic events of parallelWalk's queue discipline.  enqueue is
always pending.Add(1) followed by the channel send (lines 177-181 and
217-220); a worker ends each directory with pending.Done() (lines
189-196 and 247); the closer goroutine, spawned after seeding, performs
pending.Wait() and then close(dirQueue) (lines 270-273), so closing
requires a zero counter. -/
inductive PoolStep : PoolState → PoolState → Prop
  | seedEnq (q i p : Nat) :
      PoolStep ⟨q, i, p, true, false⟩ ⟨q + 1, i, p + 1, true, false⟩
  | seedDone (q i p : Nat) :
      PoolStep ⟨q, i, p, true, false⟩ ⟨q, i, p, false, false⟩
  | dequeue (q i p : Nat) (s c : Bool) :
      PoolStep ⟨q + 1, i, p, s, c⟩ ⟨q, i + 1, p, s, c⟩
  | workerEnq (q i p : Nat) (s c : Bool) :
      PoolStep ⟨q, i + 1, p, s, c⟩ ⟨q + 1, i + 1, p + 1, s, c⟩
  | finish (q i p : Nat) (s c : Bool) :
      PoolStep ⟨q, i + 1, p + 1, s, c⟩ ⟨q, i, p, s, c⟩
  | close (q i : Nat) :
      PoolStep ⟨q, i, 0, false, false⟩ ⟨q, i, 0, false, true⟩

/-- The states an execution can be in: parallelWalk starts with empty
queue and counters and the seeding loop running. -/
inductive PoolReach : PoolState → Prop
  | init : PoolReach ⟨0, 0, 0, true, false⟩
  | step {s t : PoolState} : PoolReach s → PoolStep s t → PoolReach t

/-- The protocol invariant: pending counts exactly the queued plus
in-flight directories, and the channel is closed only with everything
at zero — no directory is ever dropped by the close. -/
theorem poolReach_inv : ∀ (s : PoolState), PoolReach s →
    s.pending = s.queued + s.inflight ∧
    (s.closed = true → s.queued = 0 ∧ s.inflight = 0 ∧ s.seeding = false) := by
  intro s hr
  induction hr with
  | init => exact ⟨rfl, by intro h; cases h⟩
  | step hr hs ih =>
    cases hs with
    | seedEnq q i p =>
      obtain ⟨ih1, ih2⟩ := ih
      simp only [] at ih1 ih2 ⊢
      constructor
      · omega
      · intro h
        cases h
    | seedDone q i p =>
      obtain ⟨ih1, ih2⟩ := ih
      simp only [] at ih1 ih2 ⊢
      constructor
      · omega
      · intro h
        cases h
    | dequeue q i p s2 c =>
      obtain ⟨ih1, ih2⟩ := ih
      simp only [] at ih1 ih2 ⊢
      constructor
      · omega
      · intro h
        obtain ⟨h1, h2, h3⟩ := ih2 h
        omega
    | workerEnq q i p s2 c =>
      obtain ⟨ih1, ih2⟩ := ih
      simp only [] at ih1 ih2 ⊢
      constructor
      · omega
      · intro h
        obtain ⟨h1, h2, h3⟩ := ih2 h
        omega
    | finish q i p s2 c =>
      obtain ⟨ih1, ih2⟩ := ih
      simp only [] at ih1 ih2 ⊢
      constructor
      · omega
      · intro h
        obtain ⟨h1, h2, h3⟩ := ih2 h
        omega
    | close q i =>
      obtain ⟨ih1, ih2⟩ := ih
      simp only [] at ih1 ⊢
      refine ⟨by omega, ?_⟩
      intro h
      exact ⟨by omega, by omega, by trivial⟩

/-- A close step can only fire from a state whose pending counter is
zero and whose seeding phase is over. -/
theorem poolStep_close_zero : ∀ (s t : PoolState), PoolStep s t →
    t.closed = true → s.closed = true ∨
      (s.pending = 0 ∧ s.seeding = false) := by
  intro s t hs hc
  cases hs with
  | seedEnq q i p => cases hc
  | seedDone q i p => cases hc
  | dequeue q i p s2 c => exact Or.inl hc
  | workerEnq q i p s2 c => exact Or.inl hc
  | finish q i p s2 c => exact Or.inl hc
  | close q i => exact Or.inr ⟨rfl, rfl⟩

/-! ## Small concrete fixtures -/

/-- The spec's acceptance-test tree: root/abc/report.txt,
root/.git/config, root/node_modules/pkg/index.js, root/ABC123/ (the
listing is in ReadDir's byte order). -/
def c2root : QItem :=
  ⟨"root", true,
    [FSEntry.dir ".git" true [FSEntry.file "config"],
     FSEntry.dir "ABC123" true [],
     FSEntry.dir "abc" true [FSEntry.file "report.txt"],
     FSEntry.dir "node_modules" true
       [FSEntry.dir "pkg" true [FSEntry.file "index.js"]]]⟩

/-- A root holding one hidden file: pruning applies only to
directories, so the file .env is reported. -/
def c3root : QItem := ⟨"root", true, [FSEntry.file ".env"]⟩

/-! ## The claims -/

/-- C1: the returned matches list is NOT deduplicated.  On the spec's
own acceptance tree, root/abc/report.txt exists once but is reported
twice: the seeding loop enqueues each first-level subdirectory that the
worker processing the root then enqueues again, so the abc subtree is
traversed twice and no deduplication ever runs. -/
theorem c1_duplicate_report :
    (parallelWalk "abc" SearchMode.ModeBoth true headSched c2root).matched.count
      "root/abc/report.txt" = 2 := by
  decide

/-- C2 counterexample: on the spec's acceptance tree the search does
not return the two paths the spec promises. -/
theorem c2_cex :
    (parallelWalk "abc" SearchMode.ModeBoth true headSched c2root).matched ≠
      ["root/ABC123", "root/abc"] := by
  decide

/-- C2 amended: on the acceptance tree the search returns, for every
worker schedule, the four-element list with root/abc/report.txt (a
full-path match) twice, and scans 6 entries. -/
theorem c2_exact_output (sched : Nat → Nat) :
    (parallelWalk "abc" SearchMode.ModeBoth true sched c2root).matched =
      ["root/ABC123", "root/abc", "root/abc/report.txt", "root/abc/report.txt"] ∧
    (parallelWalk "abc" SearchMode.ModeBoth true sched c2root).scanned = 6 := by
  obtain ⟨hs, hm⟩ := parallelWalk_pure "abc" SearchMode.ModeBoth true sched c2root (by decide)
  constructor
  · rw [hm]
    decide
  · rw [hs]
    decide

/-- C3 counterexample: a hidden FILE is not pruned: .env is returned
even though its only segment starts with a dot, because the skip test
applies to directories only. -/
theorem c3_cex :
    "root/.env" ∈ (parallelWalk "env" SearchMode.ModeBoth true headSched c3root).matched ∧
    startsDot (lowerS ".env") = true := by
  constructor
  · decide
  · decide

/-- C3 amended: with skipping on, every returned path is the root path
joined with a chain of segments in which every non-final segment, and
the final segment when the matched entry is a directory, passes both
skip tests; a matched file's own basename is not subject to them. -/
theorem c3_skip_segments (query : String) (mode : SearchMode) (sched : Nat → Nat)
    (root : QItem) (x : String)
    (hx : x ∈ (parallelWalk query mode true sched root).matched) :
    ∃ segs e, x = joinAll root.path segs ∧
      segs.getLast? = some (FSEntry.name e) ∧
      (∀ s ∈ segs.dropLast, skipDirs (lowerS s) = false ∧ startsDot (lowerS s) = false) ∧
      (FSEntry.isDir e = true →
        skipDirs (lowerS (FSEntry.name e)) = false ∧
        startsDot (lowerS (FSEntry.name e)) = false) := by
  obtain ⟨segs, e, hre, hm⟩ := parallelWalk_sound query mode true sched root x hx
  obtain ⟨h1, h2⟩ := reach_shape hre
  obtain ⟨h3, h4⟩ := reach_good hre
  exact ⟨segs, e, h1, h2, h3, h4⟩

/-- C3 witness: the amended statement at the acceptance tree and the
returned path root/abc. -/
theorem c3_skip_segments_witness :
    ("root/abc" ∈ (parallelWalk "abc" SearchMode.ModeBoth true headSched c2root).matched) ∧
    (∃ segs e, "root/abc" = joinAll c2root.path segs ∧
      segs.getLast? = some (FSEntry.name e) ∧
      (∀ s ∈ segs.dropLast, skipDirs (lowerS s) = false ∧ startsDot (lowerS s) = false) ∧
      (FSEntry.isDir e = true →
        skipDirs (lowerS (FSEntry.name e)) = false ∧
        startsDot (lowerS (FSEntry.name e)) = false)) :=
  ⟨by decide,
    c3_skip_segments "abc" SearchMode.ModeBoth headSched c2root "root/abc" (by decide)⟩

/-- C7: the returned error is non-nil exactly when the seeding read of
the root failed, in which case nothing is matched and nothing counts as
scanned; unreadable directories below the root never show in err. -/
theorem c7_root_error_semantics (query : String) (mode : SearchMode) (skip : Bool)
    (sched : Nat → Nat) (root : QItem) :
    ((parallelWalk query mode skip sched root).err = true ↔ root.readable = false) ∧
    (root.readable = false →
      (parallelWalk query mode skip sched root).matched = [] ∧
      (parallelWalk query mode skip sched root).scanned = 0) :=
  parallelWalk_root_error query mode skip sched root

/-- C5: in Both mode, every returned path ends in a basename whose
lowering or whose full lowered path contains the query; and under the
cap every reachable entry whose lowered basename contains the query is
returned. -/
theorem c5_both_sound_complete :
    (∀ (query : String) (skip : Bool) (sched : Nat → Nat) (root : QItem) (x : String),
      x ∈ (parallelWalk query SearchMode.ModeBoth skip sched root).matched →
      ∃ d n, x = joinPath d n ∧
        (goContains (lowerS n) query || goContains (lowerS x) query) = true) ∧
    (∀ (query : String) (skip : Bool) (sched : Nat → Nat) (root : QItem)
        (segs : List String) (x : String) (e : FSEntry),
      root.readable = true →
      (pureQueue query SearchMode.ModeBoth skip (initQueue skip root)).1.length < maxResults →
      Reach skip root.path root.entries segs x e →
      goContains (lowerS (FSEntry.name e)) query = true →
      x ∈ (parallelWalk query SearchMode.ModeBoth skip sched root).matched) := by
  constructor
  · intro query skip sched root x hx
    obtain ⟨segs, e, hre, hm⟩ :=
      parallelWalk_sound query SearchMode.ModeBoth skip sched root x hx
    obtain ⟨d, hd⟩ := reach_last hre
    refine ⟨d, e.name, hd, ?_⟩
    have hm2 : rawMatch query (lowerS e.name) x = true ∧
        modeOK SearchMode.ModeBoth e = true := by simpa using hm
    simpa [rawMatch] using hm2.1
  · intro query skip sched root segs x e hr hcap hre hq
    have hm : (rawMatch query (lowerS e.name) x && modeOK SearchMode.ModeBoth e) = true := by
      simp [rawMatch, modeOK, hq]
    have hpure := reach_pure query SearchMode.ModeBoth skip hre hm
    obtain ⟨hs, hmm⟩ := parallelWalk_pure query SearchMode.ModeBoth skip sched root hcap
    rw [hmm]
    refine mem_sortStrings.mpr ?_
    rw [show initQueue skip root =
      root :: (if root.readable then seedList skip root.path root.entries else []) from rfl]
    simp only [pureQueue]
    refine List.mem_append.mpr (Or.inr ?_)
    rw [pureItem, if_pos hr]
    exact hpure

/-- C10: strings.Contains is true for the empty needle, so with the
empty query every reachable mode-compatible entry is returned (under
the cap). -/
theorem c10_empty_query_matches_all :
    (∀ s : String, goContains s "" = true) ∧
    (∀ (mode : SearchMode) (skip : Bool) (sched : Nat → Nat) (root : QItem)
        (segs : List String) (x : String) (e : FSEntry),
      root.readable = true →
      (pureQueue "" mode skip (initQueue skip root)).1.length < maxResults →
      Reach skip root.path root.entries segs x e →
      modeOK mode e = true →
      x ∈ (parallelWalk "" mode skip sched root).matched) := by
  constructor
  · exact goContains_empty
  · intro mode skip sched root segs x e hr hcap hre hmode
    have hm : (rawMatch "" (lowerS (FSEntry.name e)) x && modeOK mode e) = true := by
      simp [rawMatch_empty, hmode]
    have hpure := reach_pure "" mode skip hre hm
    obtain ⟨hs, hmm⟩ := parallelWalk_pure "" mode skip sched root hcap
    rw [hmm]
    refine mem_sortStrings.mpr ?_
    rw [show initQueue skip root =
      root :: (if root.readable then seedList skip root.path root.entries else []) from rfl]
    simp only [pureQueue]
    refine List.mem_append.mpr (Or.inr ?_)
    rw [pureItem, if_pos hr]
    exact hpure

/-- C6 counterexample: with the cap in play the Both result is not the
union of the Files and Folders results: the directory z is in the
Folders result but not in the Both result on the same tree and query. -/
theorem c6_union_cex :
    "root/z" ∈ (parallelWalk "" SearchMode.ModeFolders false headSched c6root).matched ∧
    "root/z" ∉ (parallelWalk "" SearchMode.ModeBoth false headSched c6root).matched :=
  ⟨c6_folders_mem, c6_both_not_mem⟩

/-- C6 amended: every Files-mode result is the path of a reachable
file, every Folders-mode result the path of a reachable directory, and
below the cap the Both result set is the union of the two. -/
theorem c6_mode_partition :
    (∀ (query : String) (skip : Bool) (sched : Nat → Nat) (root : QItem) (x : String),
      x ∈ (parallelWalk query SearchMode.ModeFiles skip sched root).matched →
      ∃ segs n, Reach skip root.path root.entries segs x (FSEntry.file n)) ∧
    (∀ (query : String) (skip : Bool) (sched : Nat → Nat) (root : QItem) (x : String),
      x ∈ (parallelWalk query SearchMode.ModeFolders skip sched root).matched →
      ∃ segs n r c, Reach skip root.path root.entries segs x (FSEntry.dir n r c)) ∧
    (∀ (query : String) (skip : Bool) (sched : Nat → Nat) (root : QItem),
      (pureQueue query SearchMode.ModeBoth skip (initQueue skip root)).1.length < maxResults →
      ∀ x, x ∈ (parallelWalk query SearchMode.ModeBoth skip sched root).matched ↔
        (x ∈ (parallelWalk query SearchMode.ModeFiles skip sched root).matched ∨
         x ∈ (parallelWalk query SearchMode.ModeFolders skip sched root).matched)) := by
  refine ⟨?_, ?_, ?_⟩
  · intro query skip sched root x hx
    obtain ⟨segs, e, hre, hm⟩ :=
      parallelWalk_sound query SearchMode.ModeFiles skip sched root x hx
    have hmode : modeOK SearchMode.ModeFiles e = true :=
      (by simpa using hm : rawMatch query (lowerS e.name) x = true ∧
        modeOK SearchMode.ModeFiles e = true).2
    cases e with
    | file n => exact ⟨segs, n, hre⟩
    | dir n r c =>
      exfalso
      simp [modeOK, FSEntry.isDir] at hmode
  · intro query skip sched root x hx
    obtain ⟨segs, e, hre, hm⟩ :=
      parallelWalk_sound query SearchMode.ModeFolders skip sched root x hx
    have hmode : modeOK SearchMode.ModeFolders e = true :=
      (by simpa using hm : rawMatch query (lowerS e.name) x = true ∧
        modeOK SearchMode.ModeFolders e = true).2
    cases e with
    | file n =>
      exfalso
      simp [modeOK, FSEntry.isDir] at hmode
    | dir n r c => exact ⟨segs, n, r, c, hre⟩
  · intro query skip sched root hcapB x
    have hperm := pureQueue_modes query skip (initQueue skip root)
    have hlen : (pureQueue query SearchMode.ModeFiles skip (initQueue skip root)).1.length +
        (pureQueue query SearchMode.ModeFolders skip (initQueue skip root)).1.length =
        (pureQueue query SearchMode.ModeBoth skip (initQueue skip root)).1.length := by
      have h2 := hperm.length_eq
      simpa using h2
    obtain ⟨_, hmB⟩ := parallelWalk_pure query SearchMode.ModeBoth skip sched root hcapB
    obtain ⟨_, hmFi⟩ := parallelWalk_pure query SearchMode.ModeFiles skip sched root (by omega)
    obtain ⟨_, hmFo⟩ := parallelWalk_pure query SearchMode.ModeFolders skip sched root (by omega)
    rw [hmB, hmFi, hmFo]
    constructor
    · intro h
      have h2 := mem_sortStrings.mp h
      have h3 := hperm.mem_iff.mpr h2
      rcases List.mem_append.mp h3 with h4 | h5
      · exact Or.inl (mem_sortStrings.mpr h4)
      · exact Or.inr (mem_sortStrings.mpr h5)
    · intro h
      refine mem_sortStrings.mpr ?_
      refine hperm.mem_iff.mp ?_
      rcases h with h4 | h5
      · exact List.mem_append.mpr (Or.inl (mem_sortStrings.mp h4))
      · exact List.mem_append.mpr (Or.inr (mem_sortStrings.mp h5))

/-- C4 counterexample: a sequential run that returns more than
maxResults matches. -/
theorem c4_cex :
    maxResults <
      (parallelWalk "" SearchMode.ModeBoth false headSched c4root).matched.length := by
  rw [c4_overrun_matches]
  omega

/-- C4 amended: the cap bounds the returned matches whenever the
seeded queue's weight fits the channel capacity, so that the inline
fallback (whose later match block skips the cap check) never runs. -/
theorem c4_cap_when_queue_fits (query : String) (mode : SearchMode) (skip : Bool)
    (sched : Nat → Nat) (root : QItem)
    (h : queueW (initQueue skip root) ≤ queueCap) :
    (parallelWalk query mode skip sched root).matched.length ≤ maxResults :=
  parallelWalk_cap query mode skip sched root h

/-- C4 witness: the amended cap bound at the acceptance tree. -/
theorem c4_cap_when_queue_fits_witness :
    queueW (initQueue true c2root) ≤ queueCap ∧
    (parallelWalk "abc" SearchMode.ModeBoth true headSched c2root).matched.length ≤
      maxResults :=
  ⟨by decide,
    c4_cap_when_queue_fits "abc" SearchMode.ModeBoth true headSched c2root (by decide)⟩

/-- C8 counterexample: two schedules of the same snapshot return
different match sets once the cap is reachable. -/
theorem c8_cex :
    "root/B/mB" ∈ (parallelWalk "" SearchMode.ModeBoth false headSched c8root).matched ∧
    "root/B/mB" ∉ (parallelWalk "" SearchMode.ModeBoth false c8sched1 c8root).matched :=
  ⟨c8_run_bfirst, c8_run_afirst⟩

/-- C8 amended: with the capless match total below maxResults, the
returned triple is the same for every schedule of the worker pool. -/
theorem c8_sched_indep_under_cap (query : String) (mode : SearchMode) (skip : Bool)
    (root : QItem) (sa sb : Nat → Nat)
    (h : (pureQueue query mode skip (initQueue skip root)).1.length < maxResults) :
    parallelWalk query mode skip sa root = parallelWalk query mode skip sb root :=
  parallelWalk_sched_indep query mode skip root sa sb h

/-- C8 witness: schedule independence at the acceptance tree. -/
theorem c8_sched_indep_under_cap_witness :
    (pureQueue "abc" SearchMode.ModeBoth true (initQueue true c2root)).1.length <
      maxResults ∧
    parallelWalk "abc" SearchMode.ModeBoth true headSched c2root =
      parallelWalk "abc" SearchMode.ModeBoth true (fun _ => 1) c2root :=
  ⟨by decide,
    c8_sched_indep_under_cap "abc" SearchMode.ModeBoth true c2root headSched
      (fun _ => 1) (by decide)⟩

/-- C9: in every reachable state of the queue protocol the pending
counter is exactly the queued plus in-flight directories; the channel
is only ever closed with all of them at zero (nothing in flight is
dropped), and any step that closes it starts from a zero counter after
seeding. -/
theorem c9_close_only_when_drained (s : PoolState) (hs : PoolReach s) :
    (s.pending = s.queued + s.inflight ∧
      (s.closed = true → s.queued = 0 ∧ s.inflight = 0)) ∧
    (∀ t, PoolStep s t → t.closed = true →
      s.closed = true ∨ (s.pending = 0 ∧ s.seeding = false)) := by
  obtain ⟨h1, h2⟩ := poolReach_inv s hs
  exact ⟨⟨h1, fun hc => ⟨(h2 hc).1, (h2 hc).2.1⟩⟩,
    fun t ht hc => poolStep_close_zero s t ht hc⟩

/-- C9 witness: the protocol invariant at the closed state reached by
seeding, handing out and finishing one directory, then closing. -/
theorem c9_close_only_when_drained_witness :
    PoolReach ⟨0, 0, 0, false, true⟩ ∧
    (((⟨0, 0, 0, false, true⟩ : PoolState).pending =
        (⟨0, 0, 0, false, true⟩ : PoolState).queued +
          (⟨0, 0, 0, false, true⟩ : PoolState).inflight ∧
      ((⟨0, 0, 0, false, true⟩ : PoolState).closed = true →
        (⟨0, 0, 0, false, true⟩ : PoolState).queued = 0 ∧
        (⟨0, 0, 0, false, true⟩ : PoolState).inflight = 0)) ∧
    (∀ t, PoolStep ⟨0, 0, 0, false, true⟩ t → t.closed = true →
      (⟨0, 0, 0, false, true⟩ : PoolState).closed = true ∨
      ((⟨0, 0, 0, false, true⟩ : PoolState).pending = 0 ∧
       (⟨0, 0, 0, false, true⟩ : PoolState).seeding = false))) := by
  have hr : PoolReach ⟨0, 0, 0, false, true⟩ :=
    PoolReach.step (PoolReach.step (PoolReach.step (PoolReach.step (PoolReach.step
      PoolReach.init (PoolStep.seedEnq 0 0 0)) (PoolStep.seedDone 1 0 1))
      (PoolStep.dequeue 0 0 1 false false)) (PoolStep.finish 0 0 0 false false))
      (PoolStep.close 0 0)
  exact ⟨hr, c9_close_only_when_drained ⟨0, 0, 0, false, true⟩ hr⟩
